import Mathlib

/-!
# Verification of the `include-sql` statement analysis and runtime assembler

Shallow embedding of `src/proc-macro/src/lib.rs` (the `include_sql` procedural
macro: `add_pos_params`, `add_lst_params` and the code they generate, notably
the runtime method `into_sql_with_args`).  The companion module `sql.rs`
(lexer, statement extractor, parameter classifier) and the runtime helper
crate `include_sql_helper` are not part of the sources; where a claim depends
on them, the corresponding definitions are modelled from the spec and say so
in their doc comments.

Statement text is modelled as `List Char`; offsets are indices into that list
(the Rust code uses byte offsets into a `&str`; the arithmetic is the same).
Argument values (`&dyn ToSql`) are an opaque type parameter `α`: the core only
orders and counts them.
-/

namespace IncludeSql

/-- A list-parameter occurrence as recorded by statement analysis: the
parameter's name and the template offset of its splice point
(`sql::LstParam { name, position }`). -/
structure LstParam where
  name : String
  position : Nat
  deriving Repr, DecidableEq

/-- Usage tag computed by `add_lst_params` for every list-parameter
occurrence (`enum ParamUsage { Unique, HasDups, IsADup }`). -/
inductive ParamUsage where
  | Unique
  | HasDups
  | IsADup
  deriving Repr, DecidableEq

/-- From `add_lst_params`: mutate the first extended entry carrying `name` to
`HasDups` (`ext_lst_params[idx].usage = ParamUsage::HasDups`). -/
def markHasDups : List (LstParam × ParamUsage) → String → List (LstParam × ParamUsage)
  | [], _ => []
  | (p, u) :: rest, n =>
    if p.name = n then (p, ParamUsage.HasDups) :: rest
    else (p, u) :: markHasDups rest n

/-- From `add_lst_params`: the loop that builds `ext_lst_params`.  For each
occurrence in order: if an earlier extended entry has the same name, mark that
entry `HasDups` and append the occurrence as `IsADup`; otherwise append it as
`Unique`. -/
def buildExtAux (acc : List (LstParam × ParamUsage)) : List LstParam → List (LstParam × ParamUsage)
  | [] => acc
  | p :: rest =>
    if acc.any (fun e => e.1.name = p.name) then
      buildExtAux (markHasDups acc p.name ++ [(p, ParamUsage.IsADup)]) rest
    else
      buildExtAux (acc ++ [(p, ParamUsage.Unique)]) rest

/-- From `add_lst_params`: the extended occurrence list (`ext_lst_params`). -/
def buildExt (lst : List LstParam) : List (LstParam × ParamUsage) :=
  buildExtAux [] lst

/-- From `add_lst_params`: the distinct list names in first-occurrence order
(`lst_fields`), which become struct fields of the generated argument
struct. -/
def lstFieldsAux (seen : List String) : List LstParam → List String
  | [] => []
  | p :: rest =>
    if p.name ∈ seen then lstFieldsAux seen rest
    else p.name :: lstFieldsAux (p.name :: seen) rest

/-- Distinct list-parameter names in first-occurrence order. -/
def lstFields (lst : List LstParam) : List String :=
  lstFieldsAux [] lst

/-- Modelled from the spec: the runtime helper `include_sql_helper::push`
(its crate is not among the sources).  For each element of the bound slice it
emits a positional placeholder — the prefix followed by the next argument
ordinal — separated by the list separator `,`, and appends the element, in
slice order, to the argument sequence. -/
def pushAux (firstElem : Bool) : List α → List Char → List Char → List α → List Char × List α
  | [], _, sql, args => (sql, args)
  | v :: vs, pfx, sql, args =>
    let sep : List Char := if firstElem then [] else [',']
    pushAux false vs pfx (sql ++ sep ++ pfx ++ Nat.toDigits 10 (args.length + 1)) (args ++ [v])

/-- The placeholder fragment `push` renders for a slice `vals` when the
argument sequence already holds `args`. -/
def renderList (vals : List α) (pfx : List Char) (args : List α) : List Char :=
  (pushAux true vals pfx [] args).1

/-- Rust slice `&text[a..b]`: in bounds iff `a ≤ b ∧ b ≤ text.length`,
otherwise the generated code would panic (modelled as `none`). -/
def slice? (text : List Char) (a b : Nat) : Option (List Char) :=
  if a ≤ b ∧ b ≤ text.length then some ((text.take b).drop a) else none

/-- Mutable state of the generated `into_sql_with_args` body while the
`push_lst_args_code` statements run: the output buffer `sql`, the argument
vector `args`, the `<name>_list` locals recorded so far, and the template
cursor `from`. -/
structure AsmState (α : Type) where
  sql : List Char
  args : List α
  rendered : List (String × List Char)
  cur : Nat

/-- Lookup of a recorded `<name>_list` local. -/
def lookupRendered (r : List (String × List Char)) (n : String) : Option (List Char) :=
  match r with
  | [] => none
  | (m, frag) :: rest => if m = n then some frag else lookupRendered rest n

/-- The statements generated by `add_lst_params` into `into_sql_with_args`,
one group per extended occurrence, followed by the final tail copy
`sql.push_str(&SQL[from..])`.  At a `Unique` or `HasDups` occurrence the
helper `push` renders the slice and appends its elements; a `HasDups`
occurrence additionally records the rendered fragment; an `IsADup` occurrence
re-emits the recorded fragment and appends nothing. -/
def runAsm (text pfx : List Char) (lstVal : String → List α) :
    List (LstParam × ParamUsage) → AsmState α → Option (List Char × List α)
  | [], st =>
    match slice? text st.cur text.length with
    | none => none
    | some tail => some (st.sql ++ tail, st.args)
  | (p, u) :: rest, st =>
    match slice? text st.cur p.position with
    | none => none
    | some seg =>
      match u with
      | ParamUsage.Unique =>
        let r := pushAux true (lstVal p.name) pfx (st.sql ++ seg) st.args
        runAsm text pfx lstVal rest ⟨r.1, r.2, st.rendered, p.position⟩
      | ParamUsage.HasDups =>
        let sql1 := st.sql ++ seg
        let r := pushAux true (lstVal p.name) pfx sql1 st.args
        runAsm text pfx lstVal rest
          ⟨r.1, r.2, st.rendered ++ [(p.name, r.1.drop sql1.length)], p.position⟩
      | ParamUsage.IsADup =>
        match lookupRendered st.rendered p.name with
        | none => none
        | some frag =>
          runAsm text pfx lstVal rest ⟨st.sql ++ seg ++ frag, st.args, st.rendered, p.position⟩

/-- The generated method `into_sql_with_args` for a statement with list
parameters: `args` starts with the scalar field values in ordinal order
(`args.push(self.#pos_params)` per field), then the `push_lst_args_code`
statements splice the template and append list elements. -/
def intoSqlWithArgs (text pfx : List Char) (posVals : List α) (lstVal : String → List α)
    (lstParams : List LstParam) : Option (List Char × List α) :=
  runAsm text pfx lstVal (buildExt lstParams) ⟨[], posVals, [], 0⟩

/-! ## Helper notions used by the statements and proofs -/

/-- Whether a usage tag is the duplicate marker. -/
def ParamUsage.isDup : ParamUsage → Bool
  | ParamUsage.IsADup => true
  | _ => false

/-- Names of the extended occurrences that bind arguments (usage not
`IsADup`), in order. -/
def keptNames (ext : List (LstParam × ParamUsage)) : List String :=
  (ext.filter (fun e => !e.2.isDup)).map (fun e => e.1.name)

/-- The template interleaved with inserted fragments: copy the template from
the cursor up to each offset, insert the fragment, finally copy the tail. -/
def spliceSegs (text : List Char) (cur : Nat) : List (Nat × List Char) → List Char
  | [] => text.drop cur
  | (p, f) :: rest => ((text.take p).drop cur) ++ f ++ spliceSegs text p rest

/-- Every duplicate marker is covered: when it is reached, its name has
already been recorded (either in `r` or by an earlier `HasDups` entry). -/
def DupsCovered (r : List String) : List (LstParam × ParamUsage) → Prop
  | [] => True
  | (p, u) :: rest =>
    (u = ParamUsage.IsADup → p.name ∈ r) ∧
      DupsCovered (if u = ParamUsage.HasDups then r ++ [p.name] else r) rest

/-- The first entry of every name is not a duplicate marker: an entry tagged
`IsADup` always has an earlier entry with the same name. -/
def FirstKeptAux (seen : List String) : List (LstParam × ParamUsage) → Prop
  | [] => True
  | (p, u) :: rest =>
    (u = ParamUsage.IsADup → p.name ∈ seen) ∧ FirstKeptAux (p.name :: seen) rest

/-! ## Basic lemmas about the `ext_lst_params` construction -/

theorem markHasDups_map_fst (acc : List (LstParam × ParamUsage)) (n : String) :
    (markHasDups acc n).map Prod.fst = acc.map Prod.fst := by
  induction acc with
  | nil => rfl
  | cons e rest ih =>
    obtain ⟨p, u⟩ := e
    by_cases h : p.name = n <;> simp [markHasDups, h, ih]

theorem buildExtAux_map_fst (l : List LstParam) :
    ∀ acc, (buildExtAux acc l).map Prod.fst = acc.map Prod.fst ++ l := by
  induction l with
  | nil => intro acc; simp [buildExtAux]
  | cons p rest ih =>
    intro acc
    by_cases h : acc.any (fun e => e.1.name = p.name) <;>
      simp [buildExtAux, h, ih, markHasDups_map_fst]

theorem buildExt_map_fst (l : List LstParam) : (buildExt l).map Prod.fst = l := by
  simpa using buildExtAux_map_fst l []

theorem buildExtAux_append (l₁ l₂ : List LstParam) :
    ∀ acc, buildExtAux acc (l₁ ++ l₂) = buildExtAux (buildExtAux acc l₁) l₂ := by
  induction l₁ with
  | nil => intro acc; rfl
  | cons p rest ih =>
    intro acc
    by_cases h : acc.any (fun e => e.1.name = p.name) <;>
      simp [buildExtAux, h, ih]

theorem keptNames_append (a b : List (LstParam × ParamUsage)) :
    keptNames (a ++ b) = keptNames a ++ keptNames b := by
  simp [keptNames]

theorem buildExt_snoc (l : List LstParam) (p : LstParam) :
    buildExt (l ++ [p]) =
      if (buildExt l).any (fun e => e.1.name = p.name) then
        markHasDups (buildExt l) p.name ++ [(p, ParamUsage.IsADup)]
      else
        buildExt l ++ [(p, ParamUsage.Unique)] := by
  unfold buildExt
  rw [buildExtAux_append]
  by_cases h : (buildExtAux [] l).any (fun e => e.1.name = p.name) <;>
    simp [buildExtAux, h]

theorem any_name_of_map_fst (ext : List (LstParam × ParamUsage)) (n : String) :
    ext.any (fun e => e.1.name = n) = (ext.map Prod.fst).any (fun q => q.name = n) := by
  induction ext with
  | nil => rfl
  | cons e rest ih => simp [ih]

theorem any_name_buildExt (l : List LstParam) (n : String) :
    (buildExt l).any (fun e => e.1.name = n) = l.any (fun q => q.name = n) := by
  rw [any_name_of_map_fst, buildExt_map_fst]

theorem markHasDups_map_name (acc : List (LstParam × ParamUsage)) (n : String) :
    (markHasDups acc n).map (fun e => e.1.name) = acc.map (fun e => e.1.name) := by
  induction acc with
  | nil => rfl
  | cons e rest ih =>
    obtain ⟨p, u⟩ := e
    by_cases h : p.name = n <;> simp [markHasDups, h, ih]

theorem firstKeptAux_markHasDups (n : String) (ext : List (LstParam × ParamUsage)) :
    ∀ seen, FirstKeptAux seen ext → FirstKeptAux seen (markHasDups ext n) := by
  induction ext with
  | nil => intro seen h; exact h
  | cons e rest ih =>
    obtain ⟨p, u⟩ := e
    intro seen h
    obtain ⟨h1, h2⟩ := h
    by_cases hn : p.name = n
    · simp only [markHasDups, hn, if_pos rfl]
      exact ⟨fun hcontr => ParamUsage.noConfusion hcontr, h2⟩
    · simp only [markHasDups, if_neg hn]
      exact ⟨h1, ih _ h2⟩

theorem firstKeptAux_append (a b : List (LstParam × ParamUsage)) :
    ∀ seen, FirstKeptAux seen (a ++ b) ↔
      FirstKeptAux seen a ∧
        FirstKeptAux ((a.map (fun e => e.1.name)).reverse ++ seen) b := by
  induction a with
  | nil => intro seen; simp [FirstKeptAux]
  | cons e rest ih =>
    obtain ⟨p, u⟩ := e
    intro seen
    simp only [List.cons_append, FirstKeptAux, List.map_cons, List.reverse_cons,
      List.append_assoc, List.singleton_append, List.nil_append, and_assoc,
      List.append_eq]
    rw [ih]

theorem keptNames_markHasDups (n : String) (ext : List (LstParam × ParamUsage)) :
    ∀ seen, FirstKeptAux seen ext → n ∉ seen →
      keptNames (markHasDups ext n) = keptNames ext := by
  induction ext with
  | nil => intro seen _ _; rfl
  | cons e rest ih =>
    obtain ⟨p, u⟩ := e
    intro seen h hn
    obtain ⟨h1, h2⟩ := h
    by_cases hp : p.name = n
    · have hu : u ≠ ParamUsage.IsADup := by
        intro hu; exact hn (hp ▸ h1 hu)
      cases u with
      | IsADup => exact absurd rfl hu
      | Unique => simp [markHasDups, hp, keptNames, ParamUsage.isDup]
      | HasDups => simp [markHasDups, hp, keptNames, ParamUsage.isDup]
    · have hrec := ih (p.name :: seen) h2 (by
        intro hc
        rcases List.mem_cons.mp hc with hc | hc
        · exact hp hc.symm
        · exact hn hc)
      cases u with
      | IsADup => simp [markHasDups, hp, keptNames, ParamUsage.isDup] at hrec ⊢; exact hrec
      | Unique => simp [markHasDups, hp, keptNames, ParamUsage.isDup] at hrec ⊢; exact hrec
      | HasDups => simp [markHasDups, hp, keptNames, ParamUsage.isDup] at hrec ⊢; exact hrec

theorem firstKeptAux_buildExt (l : List LstParam) : FirstKeptAux [] (buildExt l) := by
  induction l using List.reverseRecOn with
  | nil => exact trivial
  | append_singleton l p ih =>
    rw [buildExt_snoc]
    by_cases h : (buildExt l).any (fun e => e.1.name = p.name)
    · rw [if_pos h]
      refine (firstKeptAux_append _ _ _).mpr ⟨firstKeptAux_markHasDups _ _ _ ih, ?_⟩
      refine ⟨fun _ => ?_, trivial⟩
      have hmem : p.name ∈ (buildExt l).map (fun e => e.1.name) := by
        rcases List.any_eq_true.mp h with ⟨e, he, hne⟩
        exact List.mem_map.mpr ⟨e, he, by simpa using hne⟩
      rw [markHasDups_map_name]
      simpa using hmem
    · rw [if_neg h]
      exact (firstKeptAux_append _ _ _).mpr
        ⟨ih, ⟨fun hc => ParamUsage.noConfusion hc, trivial⟩⟩

theorem any_name_eq_mem_map (l : List LstParam) (n : String) :
    l.any (fun q => q.name = n) = true ↔ n ∈ l.map LstParam.name := by
  simp [List.any_eq_true]

theorem lstFieldsAux_snoc (l : List LstParam) (p : LstParam) :
    ∀ seen, lstFieldsAux seen (l ++ [p]) =
      lstFieldsAux seen l ++
        (if p.name ∈ seen ∨ p.name ∈ l.map LstParam.name then [] else [p.name]) := by
  induction l with
  | nil =>
    intro seen
    by_cases h : p.name ∈ seen <;> simp [lstFieldsAux, h]
  | cons q rest ih =>
    intro seen
    by_cases h : q.name ∈ seen <;>
      by_cases hps : p.name ∈ seen <;>
        by_cases hpq : p.name = q.name <;>
          by_cases hpr : ∃ a ∈ rest, a.name = p.name <;>
            simp_all [lstFieldsAux] <;>
              rw [if_neg (by rintro ⟨a, ha, he⟩; exact absurd he (hpr a ha))]

theorem keptNames_buildExt (l : List LstParam) : keptNames (buildExt l) = lstFields l := by
  induction l using List.reverseRecOn with
  | nil => rfl
  | append_singleton l p ih =>
    rw [buildExt_snoc]
    by_cases h : (buildExt l).any (fun e => e.1.name = p.name)
    · rw [if_pos h, keptNames_append,
        keptNames_markHasDups p.name _ [] (firstKeptAux_buildExt l) (by simp)]
      have hmem : p.name ∈ l.map LstParam.name := by
        rw [any_name_buildExt] at h
        exact (any_name_eq_mem_map l p.name).mp h
      unfold lstFields
      rw [lstFieldsAux_snoc]
      simp [keptNames, ParamUsage.isDup, hmem]
      exact ih
    · rw [if_neg h, keptNames_append]
      have hmem : p.name ∉ l.map LstParam.name := by
        intro hc
        exact h ((any_name_buildExt l p.name).symm ▸ (any_name_eq_mem_map l p.name).mpr hc)
      unfold lstFields
      rw [lstFieldsAux_snoc]
      simp [keptNames, ParamUsage.isDup, hmem]
      exact ih

/-! ## Lemmas about the helper `push` and the generated assembly run -/

theorem pushAux_snd (vs : List α) :
    ∀ (f : Bool) (pfx sql : List Char) (args : List α),
      (pushAux f vs pfx sql args).2 = args ++ vs := by
  induction vs with
  | nil => intro f pfx sql args; simp [pushAux]
  | cons v vs ih => intro f pfx sql args; simp [pushAux, ih]

theorem pushAux_fst (vs : List α) :
    ∀ (f : Bool) (pfx sql : List Char) (args : List α),
      (pushAux f vs pfx sql args).1 = sql ++ (pushAux f vs pfx [] args).1 := by
  induction vs with
  | nil => intro f pfx sql args; simp [pushAux]
  | cons v vs ih =>
    intro f pfx sql args
    simp only [pushAux]
    conv_rhs => rw [ih]
    rw [ih]
    simp [List.append_assoc]

theorem slice?_some {text : List Char} {a b : Nat} {s : List Char}
    (h : slice? text a b = some s) :
    a ≤ b ∧ b ≤ text.length ∧ s = (text.take b).drop a := by
  unfold slice? at h
  by_cases hc : a ≤ b ∧ b ≤ text.length
  · rw [if_pos hc] at h
    cases h
    exact ⟨hc.1, hc.2, rfl⟩
  · rw [if_neg hc] at h
    cases h

theorem slice?_pos {text : List Char} {a b : Nat} (h1 : a ≤ b) (h2 : b ≤ text.length) :
    slice? text a b = some ((text.take b).drop a) := by
  simp [slice?, h1, h2]

/-- Names that have a recorded rendered fragment. -/
def rendNames (r : List (String × List Char)) : List String := r.map Prod.fst

theorem lookupRendered_isSome {r : List (String × List Char)} {n : String}
    (h : n ∈ rendNames r) : ∃ frag, lookupRendered r n = some frag := by
  induction r with
  | nil => cases h
  | cons e rest ih =>
    obtain ⟨m, frag⟩ := e
    by_cases hm : m = n
    · exact ⟨frag, by simp [lookupRendered, hm]⟩
    · have hn : n ∈ rendNames rest := by
        rcases List.mem_cons.mp h with h | h
        · exact absurd h.symm hm
        · exact h
      rcases ih hn with ⟨f, hf⟩
      exact ⟨f, by simp [lookupRendered, hm, hf]⟩

theorem runAsm_args (text pfx : List Char) (lstVal : String → List α) :
    ∀ (ext : List (LstParam × ParamUsage)) (st : AsmState α) (sql : List Char) (args : List α),
      runAsm text pfx lstVal ext st = some (sql, args) →
      args = st.args ++ ((keptNames ext).map lstVal).flatten := by
  intro ext
  induction ext with
  | nil =>
    intro st sql args h
    simp only [runAsm] at h
    cases hs : slice? text st.cur text.length with
    | none => rw [hs] at h; cases h
    | some tail =>
      rw [hs] at h
      cases h
      simp [keptNames]
  | cons e rest ih =>
    obtain ⟨p, u⟩ := e
    intro st sql args h
    simp only [runAsm] at h
    cases hs : slice? text st.cur p.position with
    | none => rw [hs] at h; cases h
    | some seg =>
      rw [hs] at h
      cases u with
      | Unique =>
        have hrec := ih _ _ _ h
        simp only [AsmState.mk.injEq] at hrec
        rw [hrec, pushAux_snd]
        simp [keptNames, ParamUsage.isDup, List.append_assoc]
      | HasDups =>
        have hrec := ih _ _ _ h
        rw [hrec, pushAux_snd]
        simp [keptNames, ParamUsage.isDup, List.append_assoc]
      | IsADup =>
        cases hl : lookupRendered st.rendered p.name with
        | none => rw [hl] at h; cases h
        | some frag =>
          rw [hl] at h
          have hrec := ih _ _ _ h
          rw [hrec]
          simp [keptNames, ParamUsage.isDup]

theorem runAsm_sql (text pfx : List Char) (lstVal : String → List α) :
    ∀ (ext : List (LstParam × ParamUsage)) (st : AsmState α) (sql : List Char) (args : List α),
      runAsm text pfx lstVal ext st = some (sql, args) →
      ∃ frags : List (List Char), frags.length = ext.length ∧
        sql = st.sql ++ spliceSegs text st.cur ((ext.map (fun e => e.1.position)).zip frags) := by
  intro ext
  induction ext with
  | nil =>
    intro st sql args h
    simp only [runAsm] at h
    cases hs : slice? text st.cur text.length with
    | none => rw [hs] at h; cases h
    | some tail =>
      rw [hs] at h
      cases h
      refine ⟨[], rfl, ?_⟩
      obtain ⟨_, _, htail⟩ := slice?_some hs
      simp [spliceSegs, htail]
  | cons e rest ih =>
    obtain ⟨p, u⟩ := e
    intro st sql args h
    simp only [runAsm] at h
    cases hs : slice? text st.cur p.position with
    | none => rw [hs] at h; cases h
    | some seg =>
      rw [hs] at h
      obtain ⟨_, _, hseg⟩ := slice?_some hs
      cases u with
      | Unique =>
        obtain ⟨frags, hlen, hsql⟩ := ih _ _ _ h
        rw [pushAux_fst] at hsql
        exact ⟨(pushAux true (lstVal p.name) pfx [] st.args).1 :: frags, by simp [hlen],
          by simp [spliceSegs, hsql, hseg, List.append_assoc]; try rfl⟩
      | HasDups =>
        obtain ⟨frags, hlen, hsql⟩ := ih _ _ _ h
        rw [pushAux_fst] at hsql
        exact ⟨(pushAux true (lstVal p.name) pfx [] st.args).1 :: frags, by simp [hlen],
          by simp [spliceSegs, hsql, hseg, List.append_assoc]; try rfl⟩
      | IsADup =>
        cases hl : lookupRendered st.rendered p.name with
        | none => rw [hl] at h; cases h
        | some frag =>
          rw [hl] at h
          obtain ⟨frags, hlen, hsql⟩ := ih _ _ _ h
          exact ⟨frag :: frags, by simp [hlen],
            by simp [spliceSegs, hsql, hseg, List.append_assoc]; try rfl⟩

theorem runAsm_isSome (text pfx : List Char) (lstVal : String → List α) :
    ∀ (ext : List (LstParam × ParamUsage)) (st : AsmState α),
      List.Chain (· ≤ ·) st.cur (ext.map (fun e => e.1.position)) →
      (∀ e ∈ ext, e.1.position ≤ text.length) →
      st.cur ≤ text.length →
      DupsCovered (rendNames st.rendered) ext →
      ∃ out, runAsm text pfx lstVal ext st = some out := by
  intro ext
  induction ext with
  | nil =>
    intro st _ _ hcur _
    refine ⟨(st.sql ++ (text.take text.length).drop st.cur, st.args), ?_⟩
    simp only [runAsm]
    rw [slice?_pos hcur le_rfl]
  | cons e rest ih =>
    obtain ⟨p, u⟩ := e
    intro st hch hbd hcur hdc
    rw [List.map_cons, List.chain_cons] at hch
    have hple : p.position ≤ text.length := hbd (p, u) (List.mem_cons_self _ _)
    have hbd2 : ∀ e ∈ rest, e.1.position ≤ text.length :=
      fun e he => hbd e (List.mem_cons_of_mem _ he)
    obtain ⟨hd1, hd2⟩ := hdc
    cases u with
    | Unique =>
      obtain ⟨out, hout⟩ := ih ⟨(pushAux true (lstVal p.name) pfx (st.sql ++ (text.take p.position).drop st.cur) st.args).1,
          (pushAux true (lstVal p.name) pfx (st.sql ++ (text.take p.position).drop st.cur) st.args).2,
          st.rendered, p.position⟩ hch.2 hbd2 hple (by simpa using hd2)
      refine ⟨out, ?_⟩
      simp only [runAsm]
      rw [slice?_pos hch.1 hple]
      exact hout
    | HasDups =>
      obtain ⟨out, hout⟩ := ih ⟨(pushAux true (lstVal p.name) pfx (st.sql ++ (text.take p.position).drop st.cur) st.args).1,
          (pushAux true (lstVal p.name) pfx (st.sql ++ (text.take p.position).drop st.cur) st.args).2,
          st.rendered ++ [(p.name, ((pushAux true (lstVal p.name) pfx (st.sql ++ (text.take p.position).drop st.cur) st.args).1).drop (st.sql ++ (text.take p.position).drop st.cur).length)], p.position⟩
        hch.2 hbd2 hple (by simpa [rendNames] using hd2)
      refine ⟨out, ?_⟩
      simp only [runAsm]
      rw [slice?_pos hch.1 hple]
      exact hout
    | IsADup =>
      obtain ⟨frag, hfrag⟩ := lookupRendered_isSome (hd1 rfl)
      obtain ⟨out, hout⟩ := ih ⟨st.sql ++ (text.take p.position).drop st.cur ++ frag,
          st.args, st.rendered, p.position⟩ hch.2 hbd2 hple (by simpa using hd2)
      refine ⟨out, ?_⟩
      simp only [runAsm]
      rw [slice?_pos hch.1 hple, hfrag]
      exact hout

/-- The recorded names after processing a list of extended occurrences. -/
def rAfter (r : List String) : List (LstParam × ParamUsage) → List String
  | [] => r
  | (p, u) :: rest => rAfter (if u = ParamUsage.HasDups then r ++ [p.name] else r) rest

theorem dupsCovered_mono {r r' : List String} (hsub : ∀ n, n ∈ r → n ∈ r') :
    ∀ ext, DupsCovered r ext → DupsCovered r' ext := by
  intro ext
  induction ext generalizing r r' with
  | nil => intro _; trivial
  | cons e rest ih =>
    obtain ⟨p, u⟩ := e
    rintro ⟨h1, h2⟩
    refine ⟨fun hu => hsub _ (h1 hu), ?_⟩
    cases u with
    | HasDups =>
      refine ih ?_ h2
      intro n hn
      rcases List.mem_append.mp hn with hn | hn
      · exact List.mem_append.mpr (Or.inl (hsub n hn))
      · exact List.mem_append.mpr (Or.inr hn)
    | Unique => exact ih hsub h2
    | IsADup => exact ih hsub h2

theorem mem_rAfter {n : String} :
    ∀ (ext : List (LstParam × ParamUsage)) (r : List String), n ∈ r → n ∈ rAfter r ext := by
  intro ext
  induction ext with
  | nil => intro r h; exact h
  | cons e rest ih =>
    obtain ⟨p, u⟩ := e
    intro r h
    cases u with
    | HasDups => exact ih _ (List.mem_append.mpr (Or.inl h))
    | Unique => exact ih _ h
    | IsADup => exact ih _ h

theorem dupsCovered_markHasDups (n : String) :
    ∀ (ext : List (LstParam × ParamUsage)) (r : List String),
      DupsCovered r ext → DupsCovered r (markHasDups ext n) := by
  intro ext
  induction ext with
  | nil => intro r h; exact h
  | cons e rest ih =>
    obtain ⟨p, u⟩ := e
    intro r h
    obtain ⟨h1, h2⟩ := h
    by_cases hp : p.name = n
    · simp only [markHasDups, if_pos hp]
      refine ⟨fun hc => absurd hc (by simp), ?_⟩
      simp only [if_pos rfl]
      cases u with
      | HasDups => simpa using h2
      | Unique =>
        simp only [reduceCtorEq, if_false] at h2
        exact dupsCovered_mono (fun m hm => List.mem_append.mpr (Or.inl hm)) _ h2
      | IsADup =>
        simp only [reduceCtorEq, if_false] at h2
        exact dupsCovered_mono (fun m hm => List.mem_append.mpr (Or.inl hm)) _ h2
    · simp only [markHasDups, if_neg hp]
      exact ⟨h1, ih _ h2⟩

theorem mem_rAfter_markHasDups {n : String} :
    ∀ (ext : List (LstParam × ParamUsage)) (r : List String),
      ext.any (fun e => e.1.name = n) → n ∈ rAfter r (markHasDups ext n) := by
  intro ext
  induction ext with
  | nil => intro r h; cases h
  | cons e rest ih =>
    obtain ⟨p, u⟩ := e
    intro r h
    by_cases hp : p.name = n
    · simp only [markHasDups, if_pos hp, rAfter, if_pos rfl]
      exact mem_rAfter _ _ (by simp [hp])
    · simp only [markHasDups, if_neg hp]
      have hrest : rest.any (fun e => e.1.name = n) := by
        rcases List.any_eq_true.mp h with ⟨x, hx, hnx⟩
        rcases List.mem_cons.mp hx with hx | hx
        · exact absurd (by simpa [hx] using hnx) hp
        · exact List.any_eq_true.mpr ⟨x, hx, hnx⟩
      simp only [rAfter]
      exact ih _ hrest

theorem dupsCovered_append (a b : List (LstParam × ParamUsage)) :
    ∀ r, DupsCovered r (a ++ b) ↔ DupsCovered r a ∧ DupsCovered (rAfter r a) b := by
  induction a with
  | nil => intro r; simp [DupsCovered, rAfter]
  | cons e rest ih =>
    obtain ⟨p, u⟩ := e
    intro r
    simp only [List.cons_append, DupsCovered, rAfter, ih, and_assoc, List.append_eq]

theorem dupsCovered_buildExt (l : List LstParam) : DupsCovered [] (buildExt l) := by
  induction l using List.reverseRecOn with
  | nil => trivial
  | append_singleton l p ih =>
    rw [buildExt_snoc]
    by_cases h : (buildExt l).any (fun e => e.1.name = p.name)
    · rw [if_pos h]
      refine (dupsCovered_append _ _ _).mpr
        ⟨dupsCovered_markHasDups _ _ _ ih, ⟨fun _ => ?_, trivial⟩⟩
      exact mem_rAfter_markHasDups _ _ h
    · rw [if_neg h]
      exact (dupsCovered_append _ _ _).mpr
        ⟨ih, ⟨fun hc => ParamUsage.noConfusion hc, trivial⟩⟩

/-! ## Top-level properties of the generated `into_sql_with_args` -/

theorem intoSqlWithArgs_args {text pfx : List Char} {posVals : List α}
    {lstVal : String → List α} {l : List LstParam} {sql : List Char} {args : List α}
    (h : intoSqlWithArgs text pfx posVals lstVal l = some (sql, args)) :
    args = posVals ++ ((lstFields l).map lstVal).flatten := by
  have := runAsm_args text pfx lstVal (buildExt l) ⟨[], posVals, [], 0⟩ sql args h
  rwa [keptNames_buildExt] at this

theorem intoSqlWithArgs_isSome {text pfx : List Char} {posVals : List α}
    {lstVal : String → List α} {l : List LstParam}
    (hmono : List.Chain (· ≤ ·) 0 (l.map LstParam.position))
    (hbd : ∀ p ∈ l, p.position ≤ text.length) :
    ∃ out, intoSqlWithArgs text pfx posVals lstVal l = some out := by
  refine runAsm_isSome text pfx lstVal (buildExt l) ⟨[], posVals, [], 0⟩ ?_ ?_ (Nat.zero_le _)
    (dupsCovered_buildExt l)
  · have : (buildExt l).map (fun e => e.1.position) = l.map LstParam.position := by
      rw [show (fun (e : LstParam × ParamUsage) => e.1.position) =
        (LstParam.position ∘ Prod.fst) from rfl, ← List.map_map, buildExt_map_fst]
    rw [this]
    exact hmono
  · intro e he
    have : e.1 ∈ l := by
      have hmem : e.1 ∈ (buildExt l).map Prod.fst := List.mem_map.mpr ⟨e, he, rfl⟩
      rwa [buildExt_map_fst] at hmem
    exact hbd e.1 this

/-! ## Fragment bookkeeping: the exact text each list occurrence inserts

`fragsOfAux` recomputes, alongside the run of the generated
`into_sql_with_args`, the fragment each extended occurrence inserts: a
`Unique` or `HasDups` occurrence renders the slice against the current
argument count, a `HasDups` occurrence additionally records its fragment
under its name, and an `IsADup` occurrence re-emits the recorded
fragment. -/

/-- The per-occurrence inserted fragments of a run starting with argument
sequence `args` and recorded fragments `rend`. -/
def fragsOfAux (pfx : List Char) (lstVal : String → List α) :
    List (LstParam × ParamUsage) → List α → List (String × List Char) → List (List Char)
  | [], _, _ => []
  | (p, u) :: rest, args, rend =>
    match u with
    | ParamUsage.Unique =>
      renderList (lstVal p.name) pfx args ::
        fragsOfAux pfx lstVal rest (args ++ lstVal p.name) rend
    | ParamUsage.HasDups =>
      renderList (lstVal p.name) pfx args ::
        fragsOfAux pfx lstVal rest (args ++ lstVal p.name)
          (rend ++ [(p.name, renderList (lstVal p.name) pfx args)])
    | ParamUsage.IsADup =>
      (lookupRendered rend p.name).getD [] :: fragsOfAux pfx lstVal rest args rend

theorem fragsOfAux_length (pfx : List Char) (lstVal : String → List α) :
    ∀ (ext : List (LstParam × ParamUsage)) (args : List α) (rend : List (String × List Char)),
      (fragsOfAux pfx lstVal ext args rend).length = ext.length := by
  intro ext
  induction ext with
  | nil => intro args rend; rfl
  | cons e rest ih =>
    obtain ⟨p, u⟩ := e
    intro args rend
    cases u <;> simp [fragsOfAux, ih]

theorem lookupRendered_append (r : List (String × List Char)) (e : String × List Char)
    (n : String) :
    lookupRendered (r ++ [e]) n =
      match lookupRendered r n with
      | some f => some f
      | none => lookupRendered [e] n := by
  induction r with
  | nil => simp [lookupRendered]
  | cons d rest ih =>
    obtain ⟨m, f⟩ := d
    by_cases hm : m = n <;> simp [lookupRendered, hm, ih]

theorem lookupRendered_append_of_some {r : List (String × List Char)} {n : String}
    {frag : List Char} (h : lookupRendered r n = some frag) (e : String × List Char) :
    lookupRendered (r ++ [e]) n = some frag := by
  rw [lookupRendered_append, h]

theorem lookupRendered_append_none_ne {r : List (String × List Char)} {n m : String}
    (h : lookupRendered r n = none) (hm : m ≠ n) (f : List Char) :
    lookupRendered (r ++ [(m, f)]) n = none := by
  rw [lookupRendered_append, h]
  simp [lookupRendered, hm]

theorem lookupRendered_append_none_eq {r : List (String × List Char)} {n : String}
    (h : lookupRendered r n = none) (f : List Char) :
    lookupRendered (r ++ [(n, f)]) n = some f := by
  rw [lookupRendered_append, h]
  simp [lookupRendered]

theorem runAsm_sql_frags (text pfx : List Char) (lstVal : String → List α) :
    ∀ (ext : List (LstParam × ParamUsage)) (st : AsmState α) (sql : List Char) (args : List α),
      runAsm text pfx lstVal ext st = some (sql, args) →
      sql = st.sql ++ spliceSegs text st.cur
        ((ext.map (fun e => e.1.position)).zip
          (fragsOfAux pfx lstVal ext st.args st.rendered)) := by
  intro ext
  induction ext with
  | nil =>
    intro st sql args h
    simp only [runAsm] at h
    cases hs : slice? text st.cur text.length with
    | none => rw [hs] at h; cases h
    | some tail =>
      rw [hs] at h
      cases h
      obtain ⟨_, _, htail⟩ := slice?_some hs
      simp [spliceSegs, fragsOfAux, htail]
  | cons e rest ih =>
    obtain ⟨p, u⟩ := e
    intro st sql args h
    simp only [runAsm] at h
    cases hs : slice? text st.cur p.position with
    | none => rw [hs] at h; cases h
    | some seg =>
      rw [hs] at h
      obtain ⟨_, _, hseg⟩ := slice?_some hs
      cases u with
      | Unique =>
        have hsql := ih _ _ _ h
        rw [pushAux_fst, pushAux_snd] at hsql
        rw [hsql]
        simp [spliceSegs, fragsOfAux, hseg, renderList, List.append_assoc, List.zip]
      | HasDups =>
        have hsql := ih _ _ _ h
        have hfrag : ((pushAux true (lstVal p.name) pfx (st.sql ++ seg) st.args).1).drop
            (st.sql ++ seg).length = renderList (lstVal p.name) pfx st.args := by
          rw [pushAux_fst]
          exact List.drop_left _ _
        rw [hfrag, pushAux_fst, pushAux_snd] at hsql
        rw [hsql]
        simp [spliceSegs, fragsOfAux, hseg, renderList, List.append_assoc, List.zip]
      | IsADup =>
        cases hl : lookupRendered st.rendered p.name with
        | none => rw [hl] at h; cases h
        | some frag =>
          rw [hl] at h
          have hsql := ih _ _ _ h
          rw [hsql]
          simp [spliceSegs, fragsOfAux, hseg, hl, List.append_assoc, List.zip]

theorem markHasDups_filter_eq (x : String) :
    ∀ (ext : List (LstParam × ParamUsage)),
      (markHasDups ext x).filter (fun e => e.1.name = x) =
        markHasDups (ext.filter (fun e => e.1.name = x)) x := by
  intro ext
  induction ext with
  | nil => rfl
  | cons e rest ih =>
    obtain ⟨p, u⟩ := e
    by_cases hp : p.name = x
    · simp [markHasDups, hp]
    · simp [markHasDups, hp, ih]

theorem markHasDups_filter_ne (x n : String) (hne : ¬n = x) :
    ∀ (ext : List (LstParam × ParamUsage)),
      (markHasDups ext n).filter (fun e => e.1.name = x) =
        ext.filter (fun e => e.1.name = x) := by
  intro ext
  induction ext with
  | nil => rfl
  | cons e rest ih =>
    obtain ⟨p, u⟩ := e
    by_cases hp : p.name = n
    · have hpx : ¬p.name = x := by rw [hp]; exact hne
      rw [markHasDups, if_pos hp, List.filter_cons, List.filter_cons]
      simp [hpx]
    · rw [markHasDups, if_neg hp, List.filter_cons, List.filter_cons]
      by_cases hpx : p.name = x <;> simp [hpx, ih]

/-- The usage tags of one name's occurrences in `ext_lst_params`: none, a
single `Unique`, or a `HasDups` first occurrence followed by duplicate
markers. -/
def dupShape : Nat → List ParamUsage
  | 0 => []
  | 1 => [ParamUsage.Unique]
  | n + 2 => ParamUsage.HasDups :: List.replicate (n + 1) ParamUsage.IsADup

theorem buildExt_filter_snd (x : String) :
    ∀ (l : List LstParam),
      ((buildExt l).filter (fun e => e.1.name = x)).map Prod.snd =
        dupShape (l.filter (fun p => p.name = x)).length := by
  intro l
  induction l using List.reverseRecOn with
  | nil => rfl
  | append_singleton l p ih =>
    rw [buildExt_snoc]
    by_cases hp : p.name = x
    · rw [hp]
      by_cases h : (buildExt l).any (fun e => e.1.name = x) = true
      · rw [if_pos h]
        have hlf : l.any (fun q => q.name = x) = true := by
          rw [← any_name_buildExt]; exact h
        have hne : l.filter (fun q => q.name = x) ≠ [] := by
          rcases List.any_eq_true.mp hlf with ⟨q, hq, hqx⟩
          intro hc
          have hmem : q ∈ l.filter (fun q => q.name = x) :=
            List.mem_filter.mpr ⟨hq, hqx⟩
          rw [hc] at hmem
          cases hmem
        obtain ⟨m, hm⟩ : ∃ m, (l.filter (fun q => q.name = x)).length = m + 1 := by
          cases hfl : l.filter (fun q => q.name = x) with
          | nil => exact absurd hfl hne
          | cons a as => exact ⟨as.length, by simp⟩
        rw [List.filter_append, List.map_append, markHasDups_filter_eq,
          show ([(p, ParamUsage.IsADup)] : List (LstParam × ParamUsage)).filter
            (fun e => e.1.name = x) = [(p, ParamUsage.IsADup)] by simp [hp],
          show (l ++ [p]).filter (fun q => q.name = x) =
            l.filter (fun q => q.name = x) ++ [p] by rw [List.filter_append]; simp [hp],
          List.length_append, hm]
        rw [hm] at ih
        cases hS : (buildExt l).filter (fun e => e.1.name = x) with
        | nil =>
          rw [hS] at ih
          cases m with
          | zero =>
            have ih0 : (List.map Prod.snd ([] : List (LstParam × ParamUsage))) =
                ParamUsage.Unique :: [] := ih
            exact List.noConfusion ih0
          | succ k =>
            have ih0 : (List.map Prod.snd ([] : List (LstParam × ParamUsage))) =
                ParamUsage.HasDups :: List.replicate (k + 1) ParamUsage.IsADup := ih
            exact List.noConfusion ih0
        | cons s S' =>
          obtain ⟨sp, su⟩ := s
          rw [hS] at ih
          have hsx : sp.name = x := by
            have hmem : (sp, su) ∈ (buildExt l).filter (fun e => e.1.name = x) := by
              rw [hS]; exact List.mem_cons_self _ _
            simpa using (List.mem_filter.mp hmem).2
          rw [show markHasDups ((sp, su) :: S') x = (sp, ParamUsage.HasDups) :: S' by
            simp [markHasDups, hsx]]
          rw [List.map_cons] at ih ⊢
          cases m with
          | zero =>
            have ih0 : su :: S'.map Prod.snd = ParamUsage.Unique :: [] := ih
            injection ih0 with hsu hS0
            rw [hS0]
            rfl
          | succ k =>
            have ih0 : su :: S'.map Prod.snd =
                ParamUsage.HasDups :: List.replicate (k + 1) ParamUsage.IsADup := ih
            injection ih0 with hsu htail
            rw [htail]
            show ParamUsage.HasDups ::
                (List.replicate (k + 1) ParamUsage.IsADup ++ [ParamUsage.IsADup]) =
              ParamUsage.HasDups :: List.replicate (k + 1 + 1) ParamUsage.IsADup
            rw [← List.replicate_succ']
      · rw [if_neg h]
        have hlf : l.any (fun q => q.name = x) = false := by
          rw [← any_name_buildExt]
          exact Bool.eq_false_iff.mpr h
        have hfl : l.filter (fun q => q.name = x) = [] := by
          rw [List.filter_eq_nil_iff]
          intro a ha
          have := List.any_eq_false.mp hlf a ha
          simpa using this
        have hS : (buildExt l).filter (fun e => e.1.name = x) = [] := by
          rw [hfl] at ih
          exact List.map_eq_nil_iff.mp ih
        rw [List.filter_append, List.map_append, hS, List.filter_append, hfl]
        simp [hp, dupShape]
    · by_cases h : (buildExt l).any (fun e => e.1.name = p.name) = true
      · rw [if_pos h]
        rw [List.filter_append, List.map_append, markHasDups_filter_ne x p.name hp,
          List.filter_append]
        simp [hp, ih]
      · rw [if_neg h]
        rw [List.filter_append, List.map_append, List.filter_append]
        simp [hp, ih]

theorem fragsOfAux_all_dups (pfx : List Char) (lstVal : String → List α) (x : String)
    (frag : List Char) :
    ∀ (ext : List (LstParam × ParamUsage)) (args : List α) (rend : List (String × List Char)),
      lookupRendered rend x = some frag →
      (∀ e ∈ ext, e.1.name = x → e.2 = ParamUsage.IsADup) →
      ∀ (i : Nat) (e : LstParam × ParamUsage), ext.get? i = some e → e.1.name = x →
        (fragsOfAux pfx lstVal ext args rend).get? i = some frag := by
  intro ext
  induction ext with
  | nil => intro args rend _ _ i e he _; cases he
  | cons e0 rest ih =>
    obtain ⟨p, u⟩ := e0
    intro args rend hlook hall i e he hex
    cases i with
    | zero =>
      rw [List.get?_cons_zero] at he
      cases he
      have hu : u = ParamUsage.IsADup := hall (p, u) (List.mem_cons_self _ _) hex
      subst hu
      have hex' : p.name = x := hex
      simp [fragsOfAux, hex', hlook]
    | succ i =>
      rw [List.get?_cons_succ] at he
      have hall2 : ∀ e' ∈ rest, e'.1.name = x → e'.2 = ParamUsage.IsADup :=
        fun e' he' hx' => hall e' (List.mem_cons_of_mem _ he') hx'
      cases u with
      | Unique =>
        rw [show (fragsOfAux pfx lstVal ((p, ParamUsage.Unique) :: rest) args rend).get? (i + 1)
            = (fragsOfAux pfx lstVal rest (args ++ lstVal p.name) rend).get? i by
          simp [fragsOfAux]]
        exact ih _ _ hlook hall2 i e he hex
      | IsADup =>
        rw [show (fragsOfAux pfx lstVal ((p, ParamUsage.IsADup) :: rest) args rend).get? (i + 1)
            = (fragsOfAux pfx lstVal rest args rend).get? i by simp [fragsOfAux]]
        exact ih _ _ hlook hall2 i e he hex
      | HasDups =>
        have hpx : ¬p.name = x := by
          intro hc
          exact ParamUsage.noConfusion (hall (p, ParamUsage.HasDups) (List.mem_cons_self _ _) hc)
        have hlook2 : lookupRendered
            (rend ++ [(p.name, renderList (lstVal p.name) pfx args)]) x = some frag :=
          lookupRendered_append_of_some hlook _
        rw [show (fragsOfAux pfx lstVal ((p, ParamUsage.HasDups) :: rest) args rend).get? (i + 1)
            = (fragsOfAux pfx lstVal rest (args ++ lstVal p.name)
                (rend ++ [(p.name, renderList (lstVal p.name) pfx args)])).get? i by
          simp [fragsOfAux]]
        exact ih _ _ hlook2 hall2 i e he hex

theorem fragsOfAux_first_x (pfx : List Char) (lstVal : String → List α) (x : String) :
    ∀ (ext : List (LstParam × ParamUsage)) (args : List α) (rend : List (String × List Char))
      (k : Nat),
      lookupRendered rend x = none →
      ((ext.filter (fun e => e.1.name = x)).map Prod.snd =
        ParamUsage.HasDups :: List.replicate k ParamUsage.IsADup) →
      ∃ args₀ : List α,
        ∀ (i : Nat) (e : LstParam × ParamUsage), ext.get? i = some e → e.1.name = x →
          (fragsOfAux pfx lstVal ext args rend).get? i =
            some (renderList (lstVal x) pfx args₀) := by
  intro ext
  induction ext with
  | nil =>
    intro args rend k _ hshape
    exact absurd hshape (by simp)
  | cons e0 rest ih =>
    obtain ⟨p, u⟩ := e0
    intro args rend k hnone hshape
    by_cases hp : p.name = x
    · rw [show ((p, u) :: rest).filter (fun e => e.1.name = x) =
          (p, u) :: rest.filter (fun e => e.1.name = x) by simp [hp],
        List.map_cons, List.cons.injEq] at hshape
      obtain ⟨hu, htail⟩ := hshape
      subst hu
      refine ⟨args, ?_⟩
      have hrend : lookupRendered
          (rend ++ [(p.name, renderList (lstVal p.name) pfx args)]) x =
          some (renderList (lstVal x) pfx args) := by
        rw [hp]
        exact lookupRendered_append_none_eq hnone _
      intro i e he hex
      cases i with
      | zero =>
        rw [List.get?_cons_zero] at he
        cases he
        simp [fragsOfAux, hp]
      | succ i =>
        rw [List.get?_cons_succ] at he
        have hall : ∀ e' ∈ rest, e'.1.name = x → e'.2 = ParamUsage.IsADup := by
          intro e' he' hx'
          have hmem : e'.2 ∈ (rest.filter (fun e => e.1.name = x)).map Prod.snd :=
            List.mem_map.mpr ⟨e', List.mem_filter.mpr ⟨he', by simp [hx']⟩, rfl⟩
          rw [htail] at hmem
          exact List.eq_of_mem_replicate hmem
        rw [show (fragsOfAux pfx lstVal ((p, ParamUsage.HasDups) :: rest) args rend).get? (i + 1)
            = (fragsOfAux pfx lstVal rest (args ++ lstVal p.name)
                (rend ++ [(p.name, renderList (lstVal p.name) pfx args)])).get? i by
          simp [fragsOfAux]]
        exact fragsOfAux_all_dups pfx lstVal x _ rest _ _ hrend hall i e he hex
    · rw [show ((p, u) :: rest).filter (fun e => e.1.name = x) =
          rest.filter (fun e => e.1.name = x) by simp [hp]] at hshape
      cases u with
      | Unique =>
        obtain ⟨args₀, ha⟩ := ih (args ++ lstVal p.name) rend k hnone hshape
        refine ⟨args₀, ?_⟩
        intro i e he hex
        cases i with
        | zero =>
          rw [List.get?_cons_zero] at he
          cases he
          exact absurd hex hp
        | succ i =>
          rw [List.get?_cons_succ] at he
          rw [show (fragsOfAux pfx lstVal ((p, ParamUsage.Unique) :: rest) args rend).get? (i + 1)
              = (fragsOfAux pfx lstVal rest (args ++ lstVal p.name) rend).get? i by
            simp [fragsOfAux]]
          exact ha i e he hex
      | HasDups =>
        have hnone2 : lookupRendered
            (rend ++ [(p.name, renderList (lstVal p.name) pfx args)]) x = none :=
          lookupRendered_append_none_ne hnone hp _
        obtain ⟨args₀, ha⟩ := ih (args ++ lstVal p.name)
          (rend ++ [(p.name, renderList (lstVal p.name) pfx args)]) k hnone2 hshape
        refine ⟨args₀, ?_⟩
        intro i e he hex
        cases i with
        | zero =>
          rw [List.get?_cons_zero] at he
          cases he
          exact absurd hex hp
        | succ i =>
          rw [List.get?_cons_succ] at he
          rw [show (fragsOfAux pfx lstVal ((p, ParamUsage.HasDups) :: rest) args rend).get? (i + 1)
              = (fragsOfAux pfx lstVal rest (args ++ lstVal p.name)
                  (rend ++ [(p.name, renderList (lstVal p.name) pfx args)])).get? i by
            simp [fragsOfAux]]
          exact ha i e he hex
      | IsADup =>
        obtain ⟨args₀, ha⟩ := ih args rend k hnone hshape
        refine ⟨args₀, ?_⟩
        intro i e he hex
        cases i with
        | zero =>
          rw [List.get?_cons_zero] at he
          cases he
          exact absurd hex hp
        | succ i =>
          rw [List.get?_cons_succ] at he
          rw [show (fragsOfAux pfx lstVal ((p, ParamUsage.IsADup) :: rest) args rend).get? (i + 1)
              = (fragsOfAux pfx lstVal rest args rend).get? i by simp [fragsOfAux]]
          exact ha i e he hex

theorem mem_lstFieldsAux (x : String) :
    ∀ (l : List LstParam) (seen : List String),
      x ∈ lstFieldsAux seen l ↔ (x ∈ l.map LstParam.name ∧ x ∉ seen) := by
  intro l
  induction l with
  | nil => intro seen; simp [lstFieldsAux]
  | cons p rest ih =>
    intro seen
    by_cases hp : p.name ∈ seen
    · rw [lstFieldsAux, if_pos hp, ih]
      simp only [List.map_cons, List.mem_cons]
      constructor
      · rintro ⟨hm, hs⟩
        exact ⟨Or.inr hm, hs⟩
      · rintro ⟨hm | hm, hs⟩
        · rw [hm] at hs
          exact absurd hp hs
        · exact ⟨hm, hs⟩
    · rw [lstFieldsAux, if_neg hp]
      simp only [List.mem_cons, ih, List.map_cons]
      constructor
      · rintro (h | ⟨hm, hs⟩)
        · exact ⟨Or.inl h, fun hc => hp (h ▸ hc)⟩
        · exact ⟨Or.inr hm, fun hc => hs (Or.inr hc)⟩
      · rintro ⟨hm | hm, hs⟩
        · exact Or.inl hm
        · by_cases hxp : x = p.name
          · exact Or.inl hxp
          · exact Or.inr ⟨hm, fun hc => hc.elim hxp hs⟩

theorem lstFieldsAux_nodup : ∀ (l : List LstParam) (seen : List String),
    (lstFieldsAux seen l).Nodup := by
  intro l
  induction l with
  | nil => intro seen; exact List.nodup_nil
  | cons p rest ih =>
    intro seen
    by_cases hp : p.name ∈ seen
    · rw [lstFieldsAux, if_pos hp]
      exact ih seen
    · rw [lstFieldsAux, if_neg hp]
      refine List.nodup_cons.mpr ⟨fun hc => ?_, ih _⟩
      exact ((mem_lstFieldsAux p.name rest (p.name :: seen)).mp hc).2 (List.mem_cons_self _ _)

theorem lstFields_count_one {l : List LstParam} {x : String}
    (hx : x ∈ l.map LstParam.name) : (lstFields l).count x = 1 := by
  have hmem : x ∈ lstFields l := (mem_lstFieldsAux x l []).mpr ⟨hx, by simp⟩
  have hnd : (lstFields l).Nodup := lstFieldsAux_nodup l []
  have h1 : (lstFields l).count x ≤ 1 := List.nodup_iff_count_le_one.mp hnd x
  have h2 : 0 < (lstFields l).count x := List.count_pos_iff.mpr hmem
  omega

theorem get?_of_map {β γ : Type} (f : β → γ) :
    ∀ (l : List β) (i : Nat), (l.map f).get? i = (l.get? i).map f := by
  intro l
  induction l with
  | nil => intro i; rfl
  | cons a l ih =>
    intro i
    cases i with
    | zero => rfl
    | succ i => exact ih i

theorem buildExt_get?_fst (l : List LstParam) (i : Nat) (p : LstParam)
    (hp : l.get? i = some p) :
    ∃ u, (buildExt l).get? i = some (p, u) := by
  have hmap : ((buildExt l).map Prod.fst).get? i = some p := by
    rw [buildExt_map_fst]; exact hp
  rw [get?_of_map] at hmap
  cases hbe : (buildExt l).get? i with
  | none => rw [hbe] at hmap; cases hmap
  | some e =>
    rw [hbe] at hmap
    simp only [Option.map] at hmap
    cases hmap
    exact ⟨e.2, rfl⟩

/-! ## Claim theorems: runtime assembly -/

/-- C1: for every statement, the generated `into_sql_with_args` returns a
deterministic, ordered argument sequence: the scalar field values first, in
ordinal (struct field) order, then the list slices in first-occurrence order
of their names, each slice's elements in supplied order. -/
theorem c1_argument_order (text pfx : List Char) (posVals : List α)
    (lstVal : String → List α) (l : List LstParam) (sql : List Char) (args : List α)
    (h : intoSqlWithArgs text pfx posVals lstVal l = some (sql, args)) :
    args = posVals ++ ((lstFields l).map lstVal).flatten :=
  intoSqlWithArgs_args h

theorem c1_argument_order_witness :
    ([5, 8, 9] : List Nat) =
      [5] ++ ((lstFields [⟨"r", 6⟩]).map (fun _ => [8, 9])).flatten :=
  c1_argument_order "A IN ()".data "$".data [5] (fun _ => [8, 9]) [⟨"r", 6⟩]
    "A IN ($2,$3)".data [5, 8, 9] (by decide)

/-- C2: a list name `x` occurring `N > 1` times among a statement's list
parameters is bound once.  On every successful run of the generated
`into_sql_with_args` the final SQL is the template spliced with one fragment
per occurrence in position order, every fragment at an occurrence of `x` is
the same rendered placeholder text byte for byte (the first occurrence
renders it, each duplicate re-emits the recorded text verbatim), the
generated argument struct holds exactly one field for `x`, and the argument
sequence holds `x`'s elements exactly once, via the flatten over the distinct
names. -/
theorem c2_duplicate_list_binding (text pfx : List Char) (posVals : List α)
    (lstVal : String → List α) (lstParams : List LstParam) (x : String)
    (sql : List Char) (args : List α)
    (hN : 2 ≤ (lstParams.filter (fun p => p.name = x)).length)
    (hrun : intoSqlWithArgs text pfx posVals lstVal lstParams = some (sql, args)) :
    ∃ (frags : List (List Char)) (args₀ : List α),
      frags.length = lstParams.length ∧
      sql = spliceSegs text 0 ((lstParams.map LstParam.position).zip frags) ∧
      (∀ (i : Nat) (p : LstParam), lstParams.get? i = some p → p.name = x →
        frags.get? i = some (renderList (lstVal x) pfx args₀)) ∧
      (lstFields lstParams).count x = 1 ∧
      args = posVals ++ ((lstFields lstParams).map lstVal).flatten := by
  obtain ⟨m, hm⟩ : ∃ m, (lstParams.filter (fun p => p.name = x)).length = m + 2 :=
    ⟨(lstParams.filter (fun p => p.name = x)).length - 2, by omega⟩
  have hshape : ((buildExt lstParams).filter (fun e => e.1.name = x)).map Prod.snd =
      ParamUsage.HasDups :: List.replicate (m + 1) ParamUsage.IsADup := by
    have h0 := buildExt_filter_snd x lstParams
    rw [hm] at h0
    exact h0
  obtain ⟨args₀, hfr⟩ := fragsOfAux_first_x pfx lstVal x (buildExt lstParams) posVals []
    (m + 1) rfl hshape
  refine ⟨fragsOfAux pfx lstVal (buildExt lstParams) posVals [], args₀, ?_, ?_, ?_, ?_, ?_⟩
  · rw [fragsOfAux_length]
    have h1 := congrArg List.length (buildExt_map_fst lstParams)
    simpa using h1
  · have hrun' : runAsm text pfx lstVal (buildExt lstParams)
        ⟨[], posVals, [], 0⟩ = some (sql, args) := hrun
    have hsql := runAsm_sql_frags text pfx lstVal (buildExt lstParams)
      ⟨[], posVals, [], 0⟩ sql args hrun'
    have hpos : (buildExt lstParams).map (fun e => e.1.position) =
        lstParams.map LstParam.position := by
      conv_rhs => rw [← buildExt_map_fst lstParams]
      rw [List.map_map]
      rfl
    rw [hsql, hpos]
    rfl
  · intro i p hp hpx
    obtain ⟨u, hu⟩ := buildExt_get?_fst lstParams i p hp
    exact hfr i (p, u) hu hpx
  · apply lstFields_count_one
    have hne : lstParams.filter (fun p => p.name = x) ≠ [] := by
      intro hc
      rw [hc] at hN
      simp at hN
    obtain ⟨q, hq⟩ : ∃ q, q ∈ lstParams.filter (fun p => p.name = x) := by
      cases hfl : lstParams.filter (fun p => p.name = x) with
      | nil => exact absurd hfl hne
      | cons a as => exact ⟨a, List.mem_cons_self _ _⟩
    obtain ⟨hql, hqx⟩ := List.mem_filter.mp hq
    have hqx' : q.name = x := by simpa using hqx
    exact List.mem_map.mpr ⟨q, hql, hqx'⟩
  · exact intoSqlWithArgs_args hrun

theorem c2_duplicate_list_binding_witness :
    ∃ (frags : List (List Char)) (args₀ : List Nat),
      frags.length = ([⟨"x", 6⟩, ⟨"y", 14⟩, ⟨"x", 22⟩] : List LstParam).length ∧
      "a IN ($1,$2) b IN ($3) c IN ($1,$2)".data =
        spliceSegs "a IN () b IN () c IN ()".data 0
          ((([⟨"x", 6⟩, ⟨"y", 14⟩, ⟨"x", 22⟩] : List LstParam).map LstParam.position).zip
            frags) ∧
      (∀ (i : Nat) (p : LstParam),
        ([⟨"x", 6⟩, ⟨"y", 14⟩, ⟨"x", 22⟩] : List LstParam).get? i = some p → p.name = "x" →
          frags.get? i = some (renderList [1, 2] "$".data args₀)) ∧
      (lstFields [⟨"x", 6⟩, ⟨"y", 14⟩, ⟨"x", 22⟩]).count "x" = 1 ∧
      ([1, 2, 9] : List Nat) =
        [] ++ ((lstFields [⟨"x", 6⟩, ⟨"y", 14⟩, ⟨"x", 22⟩]).map
          (fun n => if n = "x" then [1, 2] else [9])).flatten :=
  c2_duplicate_list_binding "a IN () b IN () c IN ()".data "$".data []
    (fun n => if n = "x" then [1, 2] else [9]) [⟨"x", 6⟩, ⟨"y", 14⟩, ⟨"x", 22⟩] "x"
    "a IN ($1,$2) b IN ($3) c IN ($1,$2)".data [1, 2, 9] (by decide) (by decide)

/-- C3: the assembler builds the final SQL in one forward pass, copying
the template up to each list offset in ascending order, inserting a rendered
fragment there, and copying the tail, so the output is the template with
fragments spliced in and every character outside the splice points
unchanged. -/
theorem c3_forward_splice (text pfx : List Char) (posVals : List α)
    (lstVal : String → List α) (l : List LstParam) (sql : List Char) (args : List α)
    (h : intoSqlWithArgs text pfx posVals lstVal l = some (sql, args)) :
    ∃ frags : List (List Char), frags.length = l.length ∧
      sql = spliceSegs text 0 ((l.map LstParam.position).zip frags) := by
  obtain ⟨frags, hlen, hsql⟩ := runAsm_sql text pfx lstVal (buildExt l) ⟨[], posVals, [], 0⟩
    sql args h
  refine ⟨frags, ?_, ?_⟩
  · rw [hlen]
    have := congrArg List.length (buildExt_map_fst l)
    simpa using this
  · rw [hsql]
    have hpos : (buildExt l).map (fun e => e.1.position) = l.map LstParam.position := by
      rw [show (fun (e : LstParam × ParamUsage) => e.1.position) =
        (LstParam.position ∘ Prod.fst) from rfl, ← List.map_map, buildExt_map_fst]
    rw [hpos]
    simp

theorem c3_forward_splice_witness :
    ∃ frags : List (List Char), frags.length = ([⟨"r", 6⟩] : List LstParam).length ∧
      "A IN ($2,$3)".data =
        spliceSegs "A IN ()".data 0 (([⟨"r", 6⟩].map LstParam.position).zip frags) :=
  c3_forward_splice "A IN ()".data "$".data ([5] : List Nat) (fun _ => [8, 9]) [⟨"r", 6⟩]
    "A IN ($2,$3)".data [5, 8, 9] (by decide)

/-- C7: assembling the same statement twice with identical scalar values
and list slices yields byte-identical SQL text and identical argument
sequences — the generated `into_sql_with_args` allocates fresh output buffers
per call and depends only on its inputs. -/
theorem c7_assembly_deterministic (text pfx : List Char) (posVals₁ posVals₂ : List α)
    (lstVal₁ lstVal₂ : String → List α) (l : List LstParam)
    (hp : posVals₁ = posVals₂) (hl : lstVal₁ = lstVal₂) :
    intoSqlWithArgs text pfx posVals₁ lstVal₁ l =
      intoSqlWithArgs text pfx posVals₂ lstVal₂ l := by
  rw [hp, hl]

theorem c7_assembly_deterministic_witness :
    intoSqlWithArgs "A IN ()".data "$".data ([5] : List Nat) (fun _ => [8, 9]) [⟨"r", 6⟩] =
      intoSqlWithArgs "A IN ()".data "$".data ([5] : List Nat) (fun _ => [8, 9]) [⟨"r", 6⟩] :=
  c7_assembly_deterministic "A IN ()".data "$".data [5] [5] (fun _ => [8, 9]) (fun _ => [8, 9])
    [⟨"r", 6⟩] rfl rfl

/-! ## The lexer

Modelled from the spec (section 4.1): the lexer lives in `sql.rs`, which is
not among the sources.  It produces, in order, typed spans over statement
text: plain text, line comment, block comment, string literal, parameter
token.  SQL's `--` line comments, `/* */` block comments and `'`-quoted
string literals with `''` as escaped quote are used, and a `::` cast is not a
parameter. -/

/-- A typed span over statement text, carrying the exact source characters it
covers. -/
inductive Span where
  | plainText (cs : List Char)
  | lineComment (cs : List Char)
  | blockComment (cs : List Char)
  | stringLit (cs : List Char)
  | paramTok (cs : List Char) (name : String)
  deriving Repr, DecidableEq

/-- The source characters a span covers. -/
def Span.chars : Span → List Char
  | Span.plainText cs => cs
  | Span.lineComment cs => cs
  | Span.blockComment cs => cs
  | Span.stringLit cs => cs
  | Span.paramTok cs _ => cs

/-- The string-literal quote character. -/
def quoteChar : Char := Char.ofNat 39

/-- Identifier-start characters (ASCII letter or underscore). -/
def isIdentStart (c : Char) : Bool := c.isAlpha || c = '_'

/-- Identifier characters (ASCII letter, digit or underscore). -/
def isIdentChar (c : Char) : Bool := c.isAlphanum || c = '_'

/-- Modelled from the spec: consume a block comment body up to and including
its `*/` closer; `none` at end of input (unterminated). -/
def takeBlock : List Char → Option (List Char × List Char)
  | [] => none
  | [_] => none
  | c1 :: c2 :: rest =>
    if c1 = '*' ∧ c2 = '/' then some (['*', '/'], rest)
    else (takeBlock (c2 :: rest)).map (fun r => (c1 :: r.1, r.2))

/-- Modelled from the spec: consume a string-literal body after the opening
quote, up to and including the closing quote; a doubled quote is an escaped
quote; `none` at end of input (unterminated). -/
def takeStr : List Char → Option (List Char × List Char)
  | [] => none
  | [c] => if c = quoteChar then some ([c], []) else none
  | c1 :: c2 :: rest =>
    if c1 = quoteChar then
      if c2 = quoteChar then (takeStr rest).map (fun r => (c1 :: c2 :: r.1, r.2))
      else some ([c1], c2 :: rest)
    else (takeStr (c2 :: rest)).map (fun r => (c1 :: r.1, r.2))

/-- Modelled from the spec: the lexer loop.  `fuel` bounds the recursion (one
unit per span; `input.length + 1` always suffices as every span is
nonempty); on a lex error the offending construct's start offset is
returned. -/
def lexAux : Nat → Nat → List Char → Except Nat (List Span)
  | 0, pos, _ => Except.error pos
  | _ + 1, _, [] => Except.ok []
  | _ + 1, pos, [c] =>
    if c = quoteChar then Except.error pos
    else Except.ok [Span.plainText [c]]
  | fuel + 1, pos, c1 :: c2 :: rest =>
    if c1 = '-' ∧ c2 = '-' then
      (lexAux fuel (pos + (c1 :: c2 :: rest.takeWhile (fun ch => ch ≠ '\n')).length)
          (rest.dropWhile (fun ch => ch ≠ '\n'))).map
        (fun spans => Span.lineComment (c1 :: c2 :: rest.takeWhile (fun ch => ch ≠ '\n')) :: spans)
    else if c1 = '/' ∧ c2 = '*' then
      (takeBlock rest).elim (Except.error pos) (fun r =>
        (lexAux fuel (pos + 2 + r.1.length) r.2).map
          (fun spans => Span.blockComment (c1 :: c2 :: r.1) :: spans))
    else if c1 = ':' ∧ c2 = ':' then
      (lexAux fuel (pos + 2) rest).map (fun spans => Span.plainText [c1, c2] :: spans)
    else if c1 = ':' ∧ isIdentStart c2 then
      (lexAux fuel (pos + 1 + (c2 :: rest.takeWhile isIdentChar).length)
          (rest.dropWhile isIdentChar)).map
        (fun spans =>
          Span.paramTok (c1 :: c2 :: rest.takeWhile isIdentChar)
            (String.mk (c2 :: rest.takeWhile isIdentChar)) :: spans)
    else if c1 = quoteChar then
      (takeStr (c2 :: rest)).elim (Except.error pos) (fun r =>
        (lexAux fuel (pos + 1 + r.1.length) r.2).map
          (fun spans => Span.stringLit (c1 :: r.1) :: spans))
    else
      (lexAux fuel (pos + 1) (c2 :: rest)).map
        (fun spans => Span.plainText [c1] :: spans)

/-- Modelled from the spec: the lexer over a statement's text. -/
def lex (input : List Char) : Except Nat (List Span) :=
  lexAux (input.length + 1) 0 input

/-- Concatenation of the spans' source characters in order. -/
def spansText (spans : List Span) : List Char := (spans.map Span.chars).flatten

theorem takeBlock_append : ∀ (l cs rem : List Char), takeBlock l = some (cs, rem) → l = cs ++ rem := by
  intro l
  induction l using takeBlock.induct with
  | case1 => intro cs rem h; cases h
  | case2 c => intro cs rem h; cases h
  | case3 c1 c2 rest hc =>
    intro cs rem h
    rw [takeBlock, if_pos hc] at h
    cases h
    simp [hc.1, hc.2]
  | case4 c1 c2 rest hc ih =>
    intro cs rem h
    rw [takeBlock, if_neg hc] at h
    cases htb : takeBlock (c2 :: rest) with
    | none => rw [htb] at h; cases h
    | some r =>
      rw [htb] at h
      simp only [Option.map] at h
      cases h
      simp [ih r.1 r.2 (by rw [htb])]

theorem takeStr_append : ∀ (l cs rem : List Char), takeStr l = some (cs, rem) → l = cs ++ rem := by
  intro l
  induction l using takeStr.induct with
  | case1 => intro cs rem h; cases h
  | case2 =>
    intro cs rem h
    rw [takeStr, if_pos rfl] at h
    cases h
    rfl
  | case3 c hc =>
    intro cs rem h
    rw [takeStr, if_neg hc] at h
    cases h
  | case4 rest ih =>
    intro cs rem h
    rw [takeStr, if_pos rfl, if_pos rfl] at h
    cases hts : takeStr rest with
    | none => rw [hts] at h; cases h
    | some r =>
      rw [hts] at h
      simp only [Option.map] at h
      cases h
      simp [ih r.1 r.2 (by rw [hts])]
  | case5 c2 rest hc =>
    intro cs rem h
    rw [takeStr, if_pos rfl, if_neg hc] at h
    cases h
    rfl
  | case6 c1 c2 rest hc ih =>
    intro cs rem h
    rw [takeStr, if_neg hc] at h
    cases hts : takeStr (c2 :: rest) with
    | none => rw [hts] at h; cases h
    | some r =>
      rw [hts] at h
      simp only [Option.map] at h
      cases h
      simp [ih r.1 r.2 (by rw [hts])]

theorem except_map_eq_ok {α β ε : Type*} {f : α → β} {x : Except ε α} {b : β}
    (h : Except.map f x = Except.ok b) : ∃ a, x = Except.ok a ∧ b = f a := by
  cases x with
  | error e => simp [Except.map] at h
  | ok a =>
    simp only [Except.map] at h
    cases h
    exact ⟨a, rfl, rfl⟩

theorem lexAux_roundtrip :
    ∀ (fuel pos : Nat) (input : List Char) (spans : List Span),
      lexAux fuel pos input = Except.ok spans → spansText spans = input := by
  intro fuel
  induction fuel with
  | zero => intro pos input spans h; cases h
  | succ fuel ih =>
    intro pos input spans h
    cases input with
    | nil =>
      rw [lexAux] at h
      cases h
      rfl
    | cons c1 rest1 =>
      cases rest1 with
      | nil =>
        rw [lexAux] at h
        by_cases hq : c1 = quoteChar
        · rw [if_pos hq] at h; cases h
        · rw [if_neg hq] at h
          cases h
          rfl
      | cons c2 rest =>
        rw [lexAux] at h
        by_cases h1 : c1 = '-' ∧ c2 = '-'
        · rw [if_pos h1] at h
          obtain ⟨spans2, hrec, hsp⟩ := except_map_eq_ok h
          subst hsp
          have hrt := ih _ _ _ hrec
          simp only [spansText, Span.chars, List.map_cons, List.flatten_cons] at hrt ⊢
          rw [hrt]
          simp [List.takeWhile_append_dropWhile]
        · rw [if_neg h1] at h
          by_cases h2 : c1 = '/' ∧ c2 = '*'
          · rw [if_pos h2] at h
            cases htb : takeBlock rest with
            | none => rw [htb] at h; cases h
            | some r =>
              rw [htb] at h
              simp only [Option.elim] at h
              obtain ⟨spans2, hrec, hsp⟩ := except_map_eq_ok h
              subst hsp
              have hrt := ih _ _ _ hrec
              have hsplit := takeBlock_append rest r.1 r.2 (by rw [htb])
              simp only [spansText, Span.chars, List.map_cons, List.flatten_cons] at hrt ⊢
              rw [hrt, hsplit]
              simp
          · rw [if_neg h2] at h
            by_cases h3 : c1 = ':' ∧ c2 = ':'
            · rw [if_pos h3] at h
              obtain ⟨spans2, hrec, hsp⟩ := except_map_eq_ok h
              subst hsp
              have hrt := ih _ _ _ hrec
              simp only [spansText, Span.chars, List.map_cons, List.flatten_cons] at hrt ⊢
              rw [hrt]
              rfl
            · rw [if_neg h3] at h
              by_cases h4 : c1 = ':' ∧ isIdentStart c2
              · rw [if_pos h4] at h
                obtain ⟨spans2, hrec, hsp⟩ := except_map_eq_ok h
                subst hsp
                have hrt := ih _ _ _ hrec
                simp only [spansText, Span.chars, List.map_cons, List.flatten_cons] at hrt ⊢
                rw [hrt]
                simp [List.takeWhile_append_dropWhile]
              · rw [if_neg h4] at h
                by_cases h5 : c1 = quoteChar
                · rw [if_pos h5] at h
                  cases hts : takeStr (c2 :: rest) with
                  | none => rw [hts] at h; cases h
                  | some r =>
                    rw [hts] at h
                    simp only [Option.elim] at h
                    obtain ⟨spans2, hrec, hsp⟩ := except_map_eq_ok h
                    subst hsp
                    have hrt := ih _ _ _ hrec
                    have hsplit := takeStr_append (c2 :: rest) r.1 r.2 (by rw [hts])
                    simp only [spansText, Span.chars, List.map_cons, List.flatten_cons] at hrt ⊢
                    rw [hrt, hsplit]
                    simp
                · rw [if_neg h5] at h
                  obtain ⟨spans2, hrec, hsp⟩ := except_map_eq_ok h
                  subst hsp
                  have hrt := ih _ _ _ hrec
                  simp only [spansText, Span.chars, List.map_cons, List.flatten_cons] at hrt ⊢
                  rw [hrt]
                  rfl

/-- C9: for any statement text the lexer accepts (balanced quoting and
comments), concatenating the produced typed spans in order reproduces the
original text exactly. -/
theorem c9_lexer_roundtrip (input : List Char) (spans : List Span)
    (h : lex input = Except.ok spans) : spansText spans = input :=
  lexAux_roundtrip _ 0 input spans h

theorem c9_lexer_roundtrip_witness :
    spansText [Span.plainText ['a'], Span.plainText [' '], Span.paramTok [':', 'x'] "x"] =
      "a :x".data :=
  c9_lexer_roundtrip "a :x".data
    [Span.plainText ['a'], Span.plainText [' '], Span.paramTok [':', 'x'] "x"] (by rfl)

/-! ## The parameter classifier

Modelled from the spec (section 4.3): the classifier lives in `sql.rs`, which
is not among the sources.  It walks a statement's parameter tokens in textual
order, assigns each a role (scalar or list), deduplicates by name, bakes
scalar placeholders into the template and records list-parameter splice
offsets; a name observed in both roles is a fatal conflict citing both
offsets. -/

/-- The syntactic role of a named-parameter occurrence. -/
inductive Role where
  | scalar
  | lst
  deriving Repr, DecidableEq

/-- Modelled from the spec: the preceding plain text ends with an opening
parenthesis that directly follows the set-membership keyword `IN`. -/
def isMembershipOpen (prev : List Char) : Bool :=
  match prev.reverse with
  | '(' :: r =>
    match r.dropWhile (fun c => c = ' ') with
    | cn :: ci :: _ => (cn = 'N' ∨ cn = 'n') ∧ (ci = 'I' ∨ ci = 'i')
    | _ => false
  | _ => false

/-- Modelled from the spec: the following plain text starts (after spaces)
with the matching closing parenthesis. -/
def startsWithClose (next : List Char) : Bool :=
  match next.dropWhile (fun c => c = ' ') with
  | ')' :: _ => true
  | _ => false

/-- The plain text directly following a position (concatenation of the
consecutive leading plain-text spans). -/
def nextPlain : List Span → List Char
  | Span.plainText nx :: rest => nx ++ nextPlain rest
  | _ => []

/-- Modelled from the spec: a parameter token is a LIST parameter iff it is
the sole content between an opening parenthesis directly following a
membership keyword and its closer; otherwise it is SCALAR. -/
def occRole (prev : List Char) (rest : List Span) : Role :=
  if isMembershipOpen prev && startsWithClose (nextPlain rest) then Role.lst
  else Role.scalar

/-- A fatal role conflict: the parameter's name, the source offset of its
first observation, and the offset of the conflicting use. -/
structure Conflict where
  name : String
  firstOff : Nat
  secondOff : Nat
  deriving Repr, DecidableEq

/-- The classifier's accumulated analysis of one statement: template text
with scalar placeholders baked in, scalar records (name, ordinal) in
allocation order, list-parameter occurrences with splice offsets, and the
first-observed role (with offset) per name. -/
structure AnalysisState where
  template : List Char
  scalars : List (String × Nat)
  lsts : List LstParam
  roles : List (String × Role × Nat)
  deriving Repr, DecidableEq

/-- First-observed role and offset recorded for a name. -/
def lookupRole : List (String × Role × Nat) → String → Option (Role × Nat)
  | [], _ => none
  | (m, r, o) :: rest, n => if m = n then some (r, o) else lookupRole rest n

/-- Ordinal recorded for a scalar name. -/
def lookupOrd : List (String × Nat) → String → Option Nat
  | [], _ => none
  | (m, k) :: rest, n => if m = n then some k else lookupOrd rest n

/-- Modelled from the spec: the classifier walk.  `prev` is the preceding
plain text (empty after non-plain spans), `pos` the source offset of the next
span.  First sighting of a scalar name allocates the next ordinal and bakes a
placeholder; later sightings reuse the ordinal but bake a placeholder at each
occurrence.  First sighting of a list name records a `LstParam` at the
current template offset; later sightings record further occurrences.  A role
conflict is a fatal error citing both offsets. -/
def classifyAux (pfx : List Char) :
    List Span → List Char → Nat → AnalysisState → Except Conflict AnalysisState
  | [], _, _, st => Except.ok st
  | Span.paramTok cs n :: rest, prev, pos, st =>
    let role := occRole prev rest
    match lookupRole st.roles n with
    | some (r0, o0) =>
      if r0 = role then
        match role with
        | Role.scalar =>
          classifyAux pfx rest [] (pos + cs.length)
            { st with template :=
                st.template ++ pfx ++ Nat.toDigits 10 ((lookupOrd st.scalars n).getD 0) }
        | Role.lst =>
          classifyAux pfx rest [] (pos + cs.length)
            { st with lsts := st.lsts ++ [⟨n, st.template.length⟩] }
      else Except.error ⟨n, o0, pos⟩
    | none =>
      match role with
      | Role.scalar =>
        classifyAux pfx rest [] (pos + cs.length)
          { st with
              template := st.template ++ pfx ++ Nat.toDigits 10 (st.scalars.length + 1),
              scalars := st.scalars ++ [(n, st.scalars.length + 1)],
              roles := st.roles ++ [(n, Role.scalar, pos)] }
      | Role.lst =>
        classifyAux pfx rest [] (pos + cs.length)
          { st with
              lsts := st.lsts ++ [⟨n, st.template.length⟩],
              roles := st.roles ++ [(n, Role.lst, pos)] }
  | Span.plainText cs :: rest, prev, pos, st =>
    classifyAux pfx rest (prev ++ cs) (pos + cs.length) { st with template := st.template ++ cs }
  | Span.lineComment cs :: rest, _, pos, st =>
    classifyAux pfx rest [] (pos + cs.length) { st with template := st.template ++ cs }
  | Span.blockComment cs :: rest, _, pos, st =>
    classifyAux pfx rest [] (pos + cs.length) { st with template := st.template ++ cs }
  | Span.stringLit cs :: rest, _, pos, st =>
    classifyAux pfx rest [] (pos + cs.length) { st with template := st.template ++ cs }

/-- Modelled from the spec: classify a statement's spans. -/
def classify (pfx : List Char) (spans : List Span) : Except Conflict AnalysisState :=
  classifyAux pfx spans [] 0 ⟨[], [], [], []⟩

/-! ## Classifier invariants -/

/-- Offsets invariant: the recorded splice offsets are monotone (together
with the starting offset `0`) and bounded by the template length. -/
def StInv (template : List Char) (lsts : List LstParam) : Prop :=
  List.Pairwise (· ≤ ·) (0 :: lsts.map LstParam.position) ∧
  ∀ p ∈ lsts, p.position ≤ template.length

/-- Scalar-records invariant: distinct names, ordinals `1..k` in allocation
order, and every recorded scalar name has a first-observed role. -/
def ScInv (scalars : List (String × Nat)) (roles : List (String × Role × Nat)) : Prop :=
  (scalars.map Prod.fst).Nodup ∧
  scalars.map Prod.snd = List.range' 1 scalars.length ∧
  ∀ n, n ∈ scalars.map Prod.fst → (lookupRole roles n).isSome

theorem lookupRole_append (tab₁ tab₂ : List (String × Role × Nat)) (n : String) :
    lookupRole (tab₁ ++ tab₂) n =
      match lookupRole tab₁ n with
      | some x => some x
      | none => lookupRole tab₂ n := by
  induction tab₁ with
  | nil => simp [lookupRole]
  | cons e rest ih =>
    obtain ⟨m, r, o⟩ := e
    by_cases hm : m = n <;> simp [lookupRole, hm, ih]

theorem stInv_append (t cs : List Char) (l : List LstParam) (h : StInv t l) :
    StInv (t ++ cs) l := by
  refine ⟨h.1, fun p hp => ?_⟩
  calc p.position ≤ t.length := h.2 p hp
    _ ≤ (t ++ cs).length := by simp

theorem stInv_addLst (t : List Char) (l : List LstParam) (n : String) (h : StInv t l) :
    StInv t (l ++ [⟨n, t.length⟩]) := by
  obtain ⟨hpw, hbd⟩ := h
  constructor
  · rw [List.map_append, ← List.cons_append, List.pairwise_append]
    refine ⟨hpw, by simp, ?_⟩
    intro a ha b hb
    have hb2 : b = t.length := by simpa using hb
    subst hb2
    rcases List.mem_cons.mp ha with ha | ha
    · subst ha; exact Nat.zero_le _
    · rcases List.mem_map.mp ha with ⟨p, hp, hpos⟩
      subst hpos
      exact hbd p hp
  · intro p hp
    rcases List.mem_append.mp hp with hp | hp
    · exact hbd p hp
    · rw [List.mem_singleton] at hp
      subst hp
      exact le_rfl

theorem scInv_addRole (scalars : List (String × Nat)) (roles : List (String × Role × Nat))
    (n : String) (r : Role) (pos : Nat) (h : ScInv scalars roles) :
    ScInv scalars (roles ++ [(n, r, pos)]) := by
  refine ⟨h.1, h.2.1, fun m hm => ?_⟩
  have := h.2.2 m hm
  rw [lookupRole_append]
  cases hl : lookupRole roles m with
  | none => rw [hl] at this; cases this
  | some x => simp

theorem scInv_addScalar (scalars : List (String × Nat)) (roles : List (String × Role × Nat))
    (n : String) (pos : Nat) (hnone : lookupRole roles n = none) (h : ScInv scalars roles) :
    ScInv (scalars ++ [(n, scalars.length + 1)]) (roles ++ [(n, Role.scalar, pos)]) := by
  obtain ⟨hnd, hord, hrl⟩ := h
  have hnotin : n ∉ scalars.map Prod.fst := by
    intro hin
    have := hrl n hin
    rw [hnone] at this
    cases this
  refine ⟨?_, ?_, ?_⟩
  · simp only [List.map_append]
    rw [List.nodup_append]
    exact ⟨hnd, by simp, by simpa using fun hc => hnotin hc⟩
  · simp only [List.map_append, List.map_cons, List.map_nil, List.length_append,
      List.length_cons, List.length_nil]
    rw [hord, List.range'_concat]
    norm_num [Nat.add_comm]
  · intro m hm
    rw [lookupRole_append]
    cases hl : lookupRole roles m with
    | some x => simp
    | none =>
      simp only [List.map_append, List.mem_append] at hm
      rcases hm with hm | hm
      · have := hrl m hm
        rw [hl] at this
        cases this
      · simp only [List.map_cons, List.map_nil, List.mem_singleton] at hm
        subst hm
        simp [lookupRole]

theorem classifyAux_inv (pfx : List Char) :
    ∀ (spans : List Span) (prev : List Char) (pos : Nat) (st st' : AnalysisState),
      classifyAux pfx spans prev pos st = Except.ok st' →
      StInv st.template st.lsts ∧ ScInv st.scalars st.roles →
      StInv st'.template st'.lsts ∧ ScInv st'.scalars st'.roles := by
  intro spans
  induction spans with
  | nil =>
    intro prev pos st st' h hinv
    rw [classifyAux] at h
    cases h
    exact hinv
  | cons s rest ih =>
    intro prev pos st st' h hinv
    cases s with
    | paramTok cs n =>
      rw [classifyAux] at h
      split at h
      · split at h
        · split at h
          · exact ih _ _ _ _ h ⟨stInv_append _ _ _ (stInv_append _ _ _ hinv.1), hinv.2⟩
          · exact ih _ _ _ _ h ⟨stInv_addLst _ _ _ hinv.1, hinv.2⟩
        · cases h
      · rename_i hlook
        split at h
        · exact ih _ _ _ _ h
            ⟨stInv_append _ _ _ (stInv_append _ _ _ hinv.1),
              scInv_addScalar _ _ _ _ hlook hinv.2⟩
        · exact ih _ _ _ _ h
            ⟨stInv_addLst _ _ _ hinv.1, scInv_addRole _ _ _ _ _ hinv.2⟩
    | plainText cs =>
      rw [classifyAux] at h
      exact ih _ _ _ _ h ⟨stInv_append _ _ _ hinv.1, hinv.2⟩
    | lineComment cs =>
      rw [classifyAux] at h
      exact ih _ _ _ _ h ⟨stInv_append _ _ _ hinv.1, hinv.2⟩
    | blockComment cs =>
      rw [classifyAux] at h
      exact ih _ _ _ _ h ⟨stInv_append _ _ _ hinv.1, hinv.2⟩
    | stringLit cs =>
      rw [classifyAux] at h
      exact ih _ _ _ _ h ⟨stInv_append _ _ _ hinv.1, hinv.2⟩

theorem classify_inv (pfx : List Char) (spans : List Span) (st : AnalysisState)
    (h : classify pfx spans = Except.ok st) :
    StInv st.template st.lsts ∧ ScInv st.scalars st.roles :=
  classifyAux_inv pfx spans [] 0 ⟨[], [], [], []⟩ st h
    ⟨⟨by simp, by simp⟩, ⟨by simp, by simp [List.range'], by simp⟩⟩

/-! ## Claim theorems: classifier invariants -/

/-- C8: for every statement produced by analysis, the recorded
list-parameter offsets are monotonically increasing and bounded by the
template length, and therefore every slice the generated assembler takes is
in bounds: assembly never panics on slicing (`intoSqlWithArgs` is total on
the analysis output). -/
theorem c8_offsets_monotone_safe (pfx : List Char) (spans : List Span) (st : AnalysisState)
    (h : classify pfx spans = Except.ok st) :
    List.Chain (· ≤ ·) 0 (st.lsts.map LstParam.position) ∧
    (∀ p ∈ st.lsts, p.position ≤ st.template.length) ∧
    ∀ (α : Type) (posVals : List α) (lstVal : String → List α),
      ∃ out, intoSqlWithArgs st.template pfx posVals lstVal st.lsts = some out := by
  obtain ⟨⟨hpw, hbd⟩, _⟩ := classify_inv pfx spans st h
  have hch : List.Chain (· ≤ ·) 0 (st.lsts.map LstParam.position) :=
    List.chain_iff_pairwise.mpr hpw
  exact ⟨hch, hbd, fun α posVals lstVal => intoSqlWithArgs_isSome hch (fun p hp => hbd p hp)⟩

/-- C4: a scalar name used any number of times has exactly one record
(distinct names) with one ordinal (ordinals are `1..k` in allocation order),
and the argument sequence of `into_sql_with_args` starts with exactly the
per-record scalar values — one slot per distinct name, regardless of how many
times a placeholder appears in the text. -/
theorem c4_scalar_one_record (pfx : List Char) (spans : List Span) (st : AnalysisState)
    (h : classify pfx spans = Except.ok st) :
    (st.scalars.map Prod.fst).Nodup ∧
    st.scalars.map Prod.snd = List.range' 1 st.scalars.length ∧
    ∀ (α : Type) (posVals : List α) (lstVal : String → List α) (sql : List Char) (args : List α),
      intoSqlWithArgs st.template pfx posVals lstVal st.lsts = some (sql, args) →
      args = posVals ++ ((lstFields st.lsts).map lstVal).flatten := by
  obtain ⟨_, hsc⟩ := classify_inv pfx spans st h
  exact ⟨hsc.1, hsc.2.1, fun α posVals lstVal sql args hrun => intoSqlWithArgs_args hrun⟩

/-- Spans of the statement `A IN (:x)`. -/
def exSpansC8 : List Span :=
  [Span.plainText ['A'], Span.plainText [' '], Span.plainText ['I'], Span.plainText ['N'],
    Span.plainText [' '], Span.plainText ['('], Span.paramTok [':', 'x'] "x",
    Span.plainText [')']]

/-- Analysis of `A IN (:x)`. -/
def exStC8 : AnalysisState := ⟨"A IN ()".data, [], [⟨"x", 6⟩], [("x", Role.lst, 6)]⟩

theorem c8_offsets_monotone_safe_witness :
    List.Chain (· ≤ ·) 0 (exStC8.lsts.map LstParam.position) ∧
    (∀ p ∈ exStC8.lsts, p.position ≤ exStC8.template.length) ∧
    ∀ (α : Type) (posVals : List α) (lstVal : String → List α),
      ∃ out, intoSqlWithArgs exStC8.template "$".data posVals lstVal exStC8.lsts = some out :=
  c8_offsets_monotone_safe "$".data exSpansC8 exStC8 (by rfl)

/-- Spans of the statement `a = :a OR b = :a` (one scalar used twice). -/
def exSpansC4 : List Span :=
  [Span.plainText ['a'], Span.plainText [' '], Span.plainText ['='], Span.plainText [' '],
    Span.paramTok [':', 'a'] "a", Span.plainText [' '], Span.plainText ['O'],
    Span.plainText ['R'], Span.plainText [' '], Span.plainText ['b'], Span.plainText [' '],
    Span.plainText ['='], Span.plainText [' '], Span.paramTok [':', 'a'] "a"]

/-- Analysis of `a = :a OR b = :a`. -/
def exStC4 : AnalysisState := ⟨"a = $1 OR b = $1".data, [("a", 1)], [], [("a", Role.scalar, 4)]⟩

theorem c4_scalar_one_record_witness :
    (exStC4.scalars.map Prod.fst).Nodup ∧
    exStC4.scalars.map Prod.snd = List.range' 1 exStC4.scalars.length ∧
    ∀ (α : Type) (posVals : List α) (lstVal : String → List α) (sql : List Char) (args : List α),
      intoSqlWithArgs exStC4.template "$".data posVals lstVal exStC4.lsts = some (sql, args) →
      args = posVals ++ ((lstFields exStC4.lsts).map lstVal).flatten :=
  c4_scalar_one_record "$".data exSpansC4 exStC4 (by rfl)

/-! ## Role conflicts (C6) -/

/-- The parameter occurrences of a span list with their computed roles and
source offsets (mirrors the classifier's walk). -/
def occurrences : List Span → List Char → Nat → List (String × Role × Nat)
  | [], _, _ => []
  | Span.paramTok cs n :: rest, prev, pos =>
    (n, occRole prev rest, pos) :: occurrences rest [] (pos + cs.length)
  | Span.plainText cs :: rest, prev, pos => occurrences rest (prev ++ cs) (pos + cs.length)
  | Span.lineComment cs :: rest, _, pos => occurrences rest [] (pos + cs.length)
  | Span.blockComment cs :: rest, _, pos => occurrences rest [] (pos + cs.length)
  | Span.stringLit cs :: rest, _, pos => occurrences rest [] (pos + cs.length)

/-- Some name is used in two conflicting roles, either among the remaining
occurrences or between the first-observed-role table and a remaining
occurrence. -/
def HasConflict (tab : List (String × Role × Nat)) (occs : List (String × Role × Nat)) : Prop :=
  ∃ n r1 o1 r2 o2, r1 ≠ r2 ∧
    (((n, r1, o1) ∈ occs ∧ (n, r2, o2) ∈ occs) ∨
      (lookupRole tab n = some (r1, o1) ∧ (n, r2, o2) ∈ occs))

theorem classifyAux_paramTok_conflict (pfx cs : List Char) (n : String) (rest : List Span)
    (prev : List Char) (pos : Nat) (st : AnalysisState) (r0 : Role) (o0 : Nat)
    (hlook : lookupRole st.roles n = some (r0, o0)) (hr : r0 ≠ occRole prev rest) :
    classifyAux pfx (Span.paramTok cs n :: rest) prev pos st =
      Except.error ⟨n, o0, pos⟩ := by
  rw [classifyAux]
  split
  · rename_i r0' o0' heq
    rw [hlook] at heq
    cases heq
    rw [if_neg hr]
  · rename_i heq
    rw [hlook] at heq
    cases heq

theorem classifyAux_paramTok_dupScalar (pfx cs : List Char) (n : String) (rest : List Span)
    (prev : List Char) (pos : Nat) (st : AnalysisState) (o0 : Nat)
    (hlook : lookupRole st.roles n = some (Role.scalar, o0))
    (hrole : occRole prev rest = Role.scalar) :
    classifyAux pfx (Span.paramTok cs n :: rest) prev pos st =
      classifyAux pfx rest [] (pos + cs.length)
        { st with template :=
            st.template ++ pfx ++ Nat.toDigits 10 ((lookupOrd st.scalars n).getD 0) } := by
  rw [classifyAux]
  split
  · rename_i r0' o0' heq
    rw [hlook] at heq
    cases heq
    rw [if_pos hrole.symm, hrole]
  · rename_i heq
    rw [hlook] at heq
    cases heq

theorem classifyAux_paramTok_dupLst (pfx cs : List Char) (n : String) (rest : List Span)
    (prev : List Char) (pos : Nat) (st : AnalysisState) (o0 : Nat)
    (hlook : lookupRole st.roles n = some (Role.lst, o0))
    (hrole : occRole prev rest = Role.lst) :
    classifyAux pfx (Span.paramTok cs n :: rest) prev pos st =
      classifyAux pfx rest [] (pos + cs.length)
        { st with lsts := st.lsts ++ [⟨n, st.template.length⟩] } := by
  rw [classifyAux]
  split
  · rename_i r0' o0' heq
    rw [hlook] at heq
    cases heq
    rw [if_pos hrole.symm, hrole]
  · rename_i heq
    rw [hlook] at heq
    cases heq

theorem classifyAux_paramTok_newScalar (pfx cs : List Char) (n : String) (rest : List Span)
    (prev : List Char) (pos : Nat) (st : AnalysisState)
    (hlook : lookupRole st.roles n = none)
    (hrole : occRole prev rest = Role.scalar) :
    classifyAux pfx (Span.paramTok cs n :: rest) prev pos st =
      classifyAux pfx rest [] (pos + cs.length)
        { st with
            template := st.template ++ pfx ++ Nat.toDigits 10 (st.scalars.length + 1),
            scalars := st.scalars ++ [(n, st.scalars.length + 1)],
            roles := st.roles ++ [(n, Role.scalar, pos)] } := by
  rw [classifyAux]
  split
  · rename_i r0' o0' heq
    rw [hlook] at heq
    cases heq
  · rw [hrole]

theorem classifyAux_paramTok_newLst (pfx cs : List Char) (n : String) (rest : List Span)
    (prev : List Char) (pos : Nat) (st : AnalysisState)
    (hlook : lookupRole st.roles n = none)
    (hrole : occRole prev rest = Role.lst) :
    classifyAux pfx (Span.paramTok cs n :: rest) prev pos st =
      classifyAux pfx rest [] (pos + cs.length)
        { st with
            lsts := st.lsts ++ [⟨n, st.template.length⟩],
            roles := st.roles ++ [(n, Role.lst, pos)] } := by
  rw [classifyAux]
  split
  · rename_i r0' o0' heq
    rw [hlook] at heq
    cases heq
  · rw [hrole]

theorem lookupRole_append_none {tab : List (String × Role × Nat)} {n : String}
    (h : lookupRole tab n = none) (r : Role) (o : Nat) :
    lookupRole (tab ++ [(n, r, o)]) n = some (r, o) := by
  rw [lookupRole_append, h]
  simp [lookupRole]

theorem lookupRole_append_some {tab : List (String × Role × Nat)} {n : String}
    {x : Role × Nat} (h : lookupRole tab n = some x) (e : String × Role × Nat) :
    lookupRole (tab ++ [e]) n = some x := by
  rw [lookupRole_append, h]

theorem classifyAux_conflict (pfx : List Char) :
    ∀ (spans : List Span) (prev : List Char) (pos : Nat) (st : AnalysisState),
      HasConflict st.roles (occurrences spans prev pos) →
      ∃ c, classifyAux pfx spans prev pos st = Except.error c := by
  intro spans
  induction spans with
  | nil =>
    intro prev pos st hc
    obtain ⟨n, r1, o1, r2, o2, hne, hcase⟩ := hc
    rcases hcase with ⟨h1, _⟩ | ⟨_, h2⟩
    · rw [occurrences] at h1; cases h1
    · rw [occurrences] at h2; cases h2
  | cons s rest ih =>
    intro prev pos st hc
    cases s with
    | plainText cs =>
      rw [occurrences] at hc
      rw [classifyAux]
      exact ih _ _ _ hc
    | lineComment cs =>
      rw [occurrences] at hc
      rw [classifyAux]
      exact ih _ _ _ hc
    | blockComment cs =>
      rw [occurrences] at hc
      rw [classifyAux]
      exact ih _ _ _ hc
    | stringLit cs =>
      rw [occurrences] at hc
      rw [classifyAux]
      exact ih _ _ _ hc
    | paramTok cs n' =>
      rw [occurrences] at hc
      obtain ⟨n, r1, o1, r2, o2, hne, hcase⟩ := hc
      cases hlook : lookupRole st.roles n' with
      | some ro =>
        obtain ⟨r0, o0⟩ := ro
        by_cases hr : r0 = occRole prev rest
        · have hconf : HasConflict st.roles (occurrences rest [] (pos + cs.length)) := by
            rcases hcase with ⟨h1, h2⟩ | ⟨hlk, h2⟩
            · rcases List.mem_cons.mp h1 with heq1 | hm1
              · rcases List.mem_cons.mp h2 with heq2 | hm2
                · simp only [Prod.mk.injEq] at heq1 heq2
                  exact absurd (heq1.2.1.trans heq2.2.1.symm) hne
                · simp only [Prod.mk.injEq] at heq1
                  obtain ⟨hn, hr1, _⟩ := heq1
                  subst hn
                  refine ⟨n, r0, o0, r2, o2, ?_, Or.inr ⟨hlook, hm2⟩⟩
                  rw [hr, ← hr1]
                  exact hne
              · rcases List.mem_cons.mp h2 with heq2 | hm2
                · simp only [Prod.mk.injEq] at heq2
                  obtain ⟨hn, hr2, _⟩ := heq2
                  subst hn
                  refine ⟨n, r0, o0, r1, o1, ?_, Or.inr ⟨hlook, hm1⟩⟩
                  rw [hr, ← hr2]
                  exact hne.symm
                · exact ⟨n, r1, o1, r2, o2, hne, Or.inl ⟨hm1, hm2⟩⟩
            · rcases List.mem_cons.mp h2 with heq2 | hm2
              · simp only [Prod.mk.injEq] at heq2
                obtain ⟨hn, hr2, _⟩ := heq2
                subst hn
                rw [hlook] at hlk
                cases hlk
                exact absurd (hr.trans hr2.symm) hne
              · exact ⟨n, r1, o1, r2, o2, hne, Or.inr ⟨hlk, hm2⟩⟩
          cases hrole : occRole prev rest with
          | scalar =>
            rw [classifyAux_paramTok_dupScalar pfx cs n' rest prev pos st o0
              (by rw [← (hr.trans hrole)]; exact hlook) hrole]
            exact ih _ _ _ hconf
          | lst =>
            rw [classifyAux_paramTok_dupLst pfx cs n' rest prev pos st o0
              (by rw [← (hr.trans hrole)]; exact hlook) hrole]
            exact ih _ _ _ hconf
        · exact ⟨⟨n', o0, pos⟩,
            classifyAux_paramTok_conflict pfx cs n' rest prev pos st r0 o0 hlook hr⟩
      | none =>
        have hconf : HasConflict (st.roles ++ [(n', occRole prev rest, pos)])
            (occurrences rest [] (pos + cs.length)) := by
          rcases hcase with ⟨h1, h2⟩ | ⟨hlk, h2⟩
          · rcases List.mem_cons.mp h1 with heq1 | hm1
            · rcases List.mem_cons.mp h2 with heq2 | hm2
              · simp only [Prod.mk.injEq] at heq1 heq2
                exact absurd (heq1.2.1.trans heq2.2.1.symm) hne
              · simp only [Prod.mk.injEq] at heq1
                obtain ⟨hn, hr1, _⟩ := heq1
                subst hn
                refine ⟨n, occRole prev rest, pos, r2, o2, ?_,
                  Or.inr ⟨lookupRole_append_none hlook _ _, hm2⟩⟩
                rw [← hr1]
                exact hne
            · rcases List.mem_cons.mp h2 with heq2 | hm2
              · simp only [Prod.mk.injEq] at heq2
                obtain ⟨hn, hr2, _⟩ := heq2
                subst hn
                refine ⟨n, occRole prev rest, pos, r1, o1, ?_,
                  Or.inr ⟨lookupRole_append_none hlook _ _, hm1⟩⟩
                rw [← hr2]
                exact hne.symm
              · exact ⟨n, r1, o1, r2, o2, hne, Or.inl ⟨hm1, hm2⟩⟩
          · rcases List.mem_cons.mp h2 with heq2 | hm2
            · simp only [Prod.mk.injEq] at heq2
              obtain ⟨hn, _, _⟩ := heq2
              subst hn
              rw [hlook] at hlk
              cases hlk
            · exact ⟨n, r1, o1, r2, o2, hne, Or.inr ⟨lookupRole_append_some hlk _, hm2⟩⟩
        cases hrole : occRole prev rest with
        | scalar =>
          rw [hrole] at hconf
          rw [classifyAux_paramTok_newScalar pfx cs n' rest prev pos st hlook hrole]
          exact ih _ _ _ hconf
        | lst =>
          rw [hrole] at hconf
          rw [classifyAux_paramTok_newLst pfx cs n' rest prev pos st hlook hrole]
          exact ih _ _ _ hconf

theorem lookupRole_append_inv {tab : List (String × Role × Nat)} {n m : String}
    {r r' : Role} {o o' : Nat}
    (h : lookupRole (tab ++ [(m, r', o')]) n = some (r, o)) :
    lookupRole tab n = some (r, o) ∨ (n = m ∧ r = r' ∧ o = o') := by
  rw [lookupRole_append] at h
  cases hl : lookupRole tab n with
  | some x =>
    rw [hl] at h
    exact Or.inl h
  | none =>
    rw [hl] at h
    have h2 : lookupRole [(m, r', o')] n = some (r, o) := h
    simp only [lookupRole] at h2
    by_cases hm : m = n
    · rw [if_pos hm] at h2
      injection h2 with h3
      rw [Prod.mk.injEq] at h3
      exact Or.inr ⟨hm.symm, h3.1.symm, h3.2.symm⟩
    · rw [if_neg hm] at h2
      cases h2

theorem classifyAux_error_sound (pfx : List Char) (P : String × Role × Nat → Prop) :
    ∀ (spans : List Span) (prev : List Char) (pos : Nat) (st : AnalysisState) (c : Conflict),
      (∀ n r o, lookupRole st.roles n = some (r, o) → P (n, r, o)) →
      (∀ e ∈ occurrences spans prev pos, P e) →
      classifyAux pfx spans prev pos st = Except.error c →
      ∃ r1 r2, r1 ≠ r2 ∧ P (c.name, r1, c.firstOff) ∧ P (c.name, r2, c.secondOff) := by
  intro spans
  induction spans with
  | nil =>
    intro prev pos st c _ _ h
    rw [classifyAux] at h
    cases h
  | cons s rest ih =>
    intro prev pos st c htab hocc h
    cases s with
    | plainText cs =>
      rw [occurrences] at hocc
      rw [classifyAux] at h
      refine ih _ _ _ _ ?_ hocc h
      exact htab
    | lineComment cs =>
      rw [occurrences] at hocc
      rw [classifyAux] at h
      refine ih _ _ _ _ ?_ hocc h
      exact htab
    | blockComment cs =>
      rw [occurrences] at hocc
      rw [classifyAux] at h
      refine ih _ _ _ _ ?_ hocc h
      exact htab
    | stringLit cs =>
      rw [occurrences] at hocc
      rw [classifyAux] at h
      refine ih _ _ _ _ ?_ hocc h
      exact htab
    | paramTok cs n' =>
      rw [occurrences] at hocc
      have hheadP : P (n', occRole prev rest, pos) := hocc _ (List.mem_cons_self _ _)
      have htail : ∀ e ∈ occurrences rest [] (pos + cs.length), P e :=
        fun e he => hocc e (List.mem_cons_of_mem _ he)
      cases hlook : lookupRole st.roles n' with
      | some ro =>
        obtain ⟨r0, o0⟩ := ro
        by_cases hr : r0 = occRole prev rest
        · cases hrole : occRole prev rest with
          | scalar =>
            rw [classifyAux_paramTok_dupScalar pfx cs n' rest prev pos st o0
              (by rw [← (hr.trans hrole)]; exact hlook) hrole] at h
            refine ih _ _ _ _ ?_ htail h
            exact htab
          | lst =>
            rw [classifyAux_paramTok_dupLst pfx cs n' rest prev pos st o0
              (by rw [← (hr.trans hrole)]; exact hlook) hrole] at h
            refine ih _ _ _ _ ?_ htail h
            exact htab
        · rw [classifyAux_paramTok_conflict pfx cs n' rest prev pos st r0 o0 hlook hr] at h
          injection h with h'
          subst h'
          exact ⟨r0, occRole prev rest, hr, htab n' r0 o0 hlook, hheadP⟩
      | none =>
        have htab2 : ∀ role, occRole prev rest = role →
            ∀ n r o, lookupRole (st.roles ++ [(n', role, pos)]) n = some (r, o) →
              P (n, r, o) := by
          intro role hrole n r o hl
          rcases lookupRole_append_inv hl with hl0 | ⟨hn, hr0, ho0⟩
          · exact htab n r o hl0
          · subst hn
            subst hr0
            subst ho0
            rw [← hrole]
            exact hheadP
        cases hrole : occRole prev rest with
        | scalar =>
          rw [classifyAux_paramTok_newScalar pfx cs n' rest prev pos st hlook hrole] at h
          refine ih _ _ _ _ ?_ htail h
          exact htab2 Role.scalar hrole
        | lst =>
          rw [classifyAux_paramTok_newLst pfx cs n' rest prev pos st hlook hrole] at h
          refine ih _ _ _ _ ?_ htail h
          exact htab2 Role.lst hrole

theorem classify_error_sound (pfx : List Char) (spans : List Span) (c : Conflict)
    (h : classify pfx spans = Except.error c) :
    ∃ r1 r2, r1 ≠ r2 ∧ (c.name, r1, c.firstOff) ∈ occurrences spans [] 0 ∧
      (c.name, r2, c.secondOff) ∈ occurrences spans [] 0 :=
  classifyAux_error_sound pfx (fun e => e ∈ occurrences spans [] 0) spans [] 0
    ⟨[], [], [], []⟩ c (fun n r o hl => by simp [lookupRole] at hl)
    (fun e he => he) h

/-- C6: a name used once in scalar syntactic position (offset `o1`) and once
in list syntactic position (offset `o2`), where no other name carries
conflicting roles, is rejected: classification of the statement returns a
fatal `ParamRoleConflict` error naming that parameter and citing both
offsets, and no statement descriptor is produced. -/
theorem c6_role_conflict_rejected (pfx : List Char) (spans : List Span) (n : String)
    (o1 o2 : Nat)
    (h1 : (n, Role.scalar, o1) ∈ occurrences spans [] 0)
    (h2 : (n, Role.lst, o2) ∈ occurrences spans [] 0)
    (hn : ∀ e ∈ occurrences spans [] 0, e.1 = n →
      e = (n, Role.scalar, o1) ∨ e = (n, Role.lst, o2))
    (huniq : ∀ e1 ∈ occurrences spans [] 0, ∀ e2 ∈ occurrences spans [] 0,
      e1.1 = e2.1 → e1.2.1 ≠ e2.2.1 → e1.1 = n) :
    ∃ c, classify pfx spans = Except.error c ∧ c.name = n ∧
      ((c.firstOff = o1 ∧ c.secondOff = o2) ∨ (c.firstOff = o2 ∧ c.secondOff = o1)) := by
  obtain ⟨c, hc⟩ := classifyAux_conflict pfx spans [] 0 ⟨[], [], [], []⟩
    ⟨n, Role.scalar, o1, Role.lst, o2, fun hcon => Role.noConfusion hcon, Or.inl ⟨h1, h2⟩⟩
  obtain ⟨r1, r2, hne, hm1, hm2⟩ := classify_error_sound pfx spans c hc
  have hcn : c.name = n := huniq _ hm1 _ hm2 rfl hne
  rw [hcn] at hm1 hm2
  have e1 := hn _ hm1 rfl
  have e2 := hn _ hm2 rfl
  refine ⟨c, hc, hcn, ?_⟩
  rcases e1 with he1 | he1
  · rcases e2 with he2 | he2
    · rw [Prod.mk.injEq, Prod.mk.injEq] at he1 he2
      exact absurd (he1.2.1.trans he2.2.1.symm) hne
    · rw [Prod.mk.injEq, Prod.mk.injEq] at he1 he2
      exact Or.inl ⟨he1.2.2, he2.2.2⟩
  · rcases e2 with he2 | he2
    · rw [Prod.mk.injEq, Prod.mk.injEq] at he1 he2
      exact Or.inr ⟨he1.2.2, he2.2.2⟩
    · rw [Prod.mk.injEq, Prod.mk.injEq] at he1 he2
      exact absurd (he1.2.1.trans he2.2.1.symm) hne

/-- Spans of the statement `a IN (:foo) OR b = :foo` (one name in both
roles). -/
def exSpansC6 : List Span :=
  [Span.plainText ['a'], Span.plainText [' '], Span.plainText ['I'], Span.plainText ['N'],
    Span.plainText [' '], Span.plainText ['('], Span.paramTok [':', 'f', 'o', 'o'] "foo",
    Span.plainText [')'], Span.plainText [' '], Span.plainText ['O'], Span.plainText ['R'],
    Span.plainText [' '], Span.plainText ['b'], Span.plainText [' '], Span.plainText ['='],
    Span.plainText [' '], Span.paramTok [':', 'f', 'o', 'o'] "foo"]

theorem c6_role_conflict_rejected_witness :
    ∃ c, classify "$".data exSpansC6 = Except.error c ∧ c.name = "foo" ∧
      ((c.firstOff = 19 ∧ c.secondOff = 6) ∨ (c.firstOff = 6 ∧ c.secondOff = 19)) :=
  c6_role_conflict_rejected "$".data exSpansC6 "foo" 19 6 (by decide) (by decide)
    (by decide) (by decide)

/-! ## Runtime binding errors (C5) -/

/-- Modelled from the spec: resolve one binding per declared name in order; a
missing binding is a `BindingError` naming the parameter.  (In the Rust code
this check is enforced at compile time: the generated argument struct
requires every field.) -/
def resolveList (bind : String → Option β) : List String → Except String (List β)
  | [] => Except.ok []
  | n :: rest =>
    match bind n with
    | none => Except.error n
    | some v => (resolveList bind rest).map (fun vs => v :: vs)

/-- Modelled from the spec: runtime assembly with the binding check — resolve
every declared scalar name and every declared (distinct) list name, then run
the generated `into_sql_with_args`. -/
def assembleChecked (text pfx : List Char) (posParams : List String) (lstParams : List LstParam)
    (posBind : String → Option α) (lstBind : String → Option (List α)) :
    Except String (Option (List Char × List α)) :=
  match resolveList posBind posParams with
  | Except.error n => Except.error n
  | Except.ok posVals =>
    match resolveList lstBind (lstFields lstParams) with
    | Except.error n => Except.error n
    | Except.ok _ =>
      Except.ok (intoSqlWithArgs text pfx posVals (fun n => (lstBind n).getD []) lstParams)

theorem resolveList_isOk_iff (bind : String → Option β) (l : List String) :
    (∃ vs, resolveList bind l = Except.ok vs) ↔ ∀ n ∈ l, (bind n).isSome := by
  induction l with
  | nil => simp [resolveList]
  | cons n rest ih =>
    cases hb : bind n with
    | none =>
      simp only [resolveList, hb]
      constructor
      · rintro ⟨vs, hvs⟩; cases hvs
      · intro hall
        have := hall n (List.mem_cons_self _ _)
        rw [hb] at this
        cases this
    | some v =>
      simp only [resolveList, hb]
      constructor
      · rintro ⟨vs, hvs⟩
        obtain ⟨ws, hws, _⟩ := except_map_eq_ok hvs
        intro m hm
        rcases List.mem_cons.mp hm with hm | hm
        · subst hm; simp [hb]
        · exact (ih.mp ⟨ws, hws⟩) m hm
      · intro hall
        obtain ⟨vs, hvs⟩ := ih.mpr (fun m hm => hall m (List.mem_cons_of_mem _ hm))
        exact ⟨v :: vs, by rw [hvs]; rfl⟩

theorem assembleChecked_ok {text pfx : List Char} {posParams : List String}
    {lstParams : List LstParam} {posBind : String → Option α}
    {lstBind : String → Option (List α)} {posVals : List α} {lstVals : List (List α)}
    (hp : resolveList posBind posParams = Except.ok posVals)
    (hl : resolveList lstBind (lstFields lstParams) = Except.ok lstVals) :
    assembleChecked text pfx posParams lstParams posBind lstBind =
      Except.ok (intoSqlWithArgs text pfx posVals (fun n => (lstBind n).getD []) lstParams) := by
  unfold assembleChecked
  rw [hp, hl]

/-- C5: runtime assembly fails with a binding error exactly when some
declared parameter name has no supplied binding; when every declared name is
bound (and the analysis offsets are well-formed) assembly succeeds; and an
empty list slice yields an empty parenthesized set without failing. -/
theorem c5_binding_errors (text pfx : List Char) (posParams : List String)
    (lstParams : List LstParam) (posBind : String → Option α)
    (lstBind : String → Option (List α))
    (hch : List.Chain (· ≤ ·) 0 (lstParams.map LstParam.position))
    (hbd : ∀ p ∈ lstParams, p.position ≤ text.length) :
    ((∃ v, assembleChecked text pfx posParams lstParams posBind lstBind = Except.ok v) ↔
      (∀ n ∈ posParams, (posBind n).isSome) ∧ ∀ n ∈ lstFields lstParams, (lstBind n).isSome) ∧
    ((∀ n ∈ posParams, (posBind n).isSome) → (∀ n ∈ lstFields lstParams, (lstBind n).isSome) →
      ∃ sql args, assembleChecked text pfx posParams lstParams posBind lstBind =
        Except.ok (some (sql, args))) ∧
    assembleChecked "X IN ()".data "$".data [] [⟨"t", 6⟩] (fun _ => (none : Option Nat))
        (fun _ => some []) = Except.ok (some ("X IN ()".data, [])) := by
  refine ⟨⟨?_, ?_⟩, ?_, by rfl⟩
  · rintro ⟨v, hv⟩
    unfold assembleChecked at hv
    split at hv
    · cases hv
    · rename_i posVals hp
      split at hv
      · cases hv
      · rename_i lstVals hl
        exact ⟨(resolveList_isOk_iff _ _).mp ⟨_, hp⟩, (resolveList_isOk_iff _ _).mp ⟨_, hl⟩⟩
  · rintro ⟨hpos, hlst⟩
    obtain ⟨posVals, hp⟩ := (resolveList_isOk_iff _ _).mpr hpos
    obtain ⟨lstVals, hl⟩ := (resolveList_isOk_iff _ _).mpr hlst
    exact ⟨_, assembleChecked_ok hp hl⟩
  · intro hpos hlst
    obtain ⟨posVals, hp⟩ := (resolveList_isOk_iff _ _).mpr hpos
    obtain ⟨lstVals, hl⟩ := (resolveList_isOk_iff _ _).mpr hlst
    obtain ⟨out, hout⟩ := @intoSqlWithArgs_isSome α text pfx posVals
      (fun n => (lstBind n).getD []) lstParams hch hbd
    exact ⟨out.1, out.2, by rw [assembleChecked_ok hp hl, hout]⟩

theorem c5_binding_errors_witness :
    ((∃ v, assembleChecked "A IN ()".data "$".data ["s"] [⟨"t", 6⟩]
        (fun n => if n = "s" then some 5 else none)
        (fun n => if n = "t" then some [7, 8] else none) = Except.ok v) ↔
      (∀ n ∈ ["s"], ((fun n => if n = "s" then some 5 else none) n).isSome) ∧
      ∀ n ∈ lstFields [⟨"t", 6⟩],
        ((fun n => if n = "t" then some [7, 8] else none) n).isSome) ∧
    ((∀ n ∈ ["s"], ((fun n => if n = "s" then some 5 else none) n).isSome) →
      (∀ n ∈ lstFields [⟨"t", 6⟩],
        ((fun n => if n = "t" then some [7, 8] else none) n).isSome) →
      ∃ sql args, assembleChecked "A IN ()".data "$".data ["s"] [⟨"t", 6⟩]
        (fun n => if n = "s" then some 5 else none)
        (fun n => if n = "t" then some [7, 8] else none) = Except.ok (some (sql, args))) ∧
    assembleChecked "X IN ()".data "$".data [] [⟨"t", 6⟩] (fun _ => (none : Option Nat))
        (fun _ => some []) = Except.ok (some ("X IN ()".data, [])) :=
  c5_binding_errors "A IN ()".data "$".data ["s"] [⟨"t", 6⟩]
    (fun n => if n = "s" then some 5 else none)
    (fun n => if n = "t" then some [7, 8] else none)
    (by norm_num [List.chain_cons]) (by decide)

/-! ## Code generation shape (C10)

Embedding of the branching in `include_sql` (src/proc-macro/src/lib.rs):
which items are generated for a statement, depending on its parameters. -/

/-- Abstract shape of the items `include_sql` pushes into the generated
code. -/
inductive GenItem where
  | constText (constName : String) (text : List Char)
  | argStruct (structName : String) (posFields : List String) (lstNames : List String)
  | defArgsMacro (macroName : String)
  | iterStruct (iterName : String)
  | intoIterImpl (structName : String)
  | iteratorImpl (iterName : String)
  | intoSqlMethod (structName : String)
  deriving Repr, DecidableEq

/-- The `sql::StmtParams` record as used by `lib.rs`. -/
structure StmtParams where
  struct_name : String
  pos_params : List String
  lst_params : List LstParam
  deriving Repr, DecidableEq

/-- The `sql::Stmt` record as used by `lib.rs`. -/
structure Stmt where
  name : String
  const_name : String
  text : List Char
  params : Option StmtParams
  deriving Repr, DecidableEq

/-- From `add_pos_params`: the argument struct over the scalar fields, the two
`def_args` macros (`using_<stmt>_args` and `<stmt>_args`), the iterator
struct, the `IntoIterator` impl and the `Iterator` impl. -/
def add_pos_params (params : StmtParams) (stmt_name : String) : List GenItem :=
  [GenItem.argStruct params.struct_name params.pos_params [],
    GenItem.defArgsMacro ("using_" ++ stmt_name ++ "_args"),
    GenItem.defArgsMacro (stmt_name ++ "_args"),
    GenItem.iterStruct (params.struct_name ++ "ArgsIter"),
    GenItem.intoIterImpl params.struct_name,
    GenItem.iteratorImpl (params.struct_name ++ "ArgsIter")]

/-- From `add_lst_params`: the argument struct over scalar fields plus the
distinct list names, and the impl carrying `into_sql_with_args`. -/
def add_lst_params (params : StmtParams) : List GenItem :=
  [GenItem.argStruct params.struct_name params.pos_params (lstFields params.lst_params),
    GenItem.intoSqlMethod params.struct_name]

/-- From `include_sql`, per statement: the `&str` constant always; then nothing if
the statement has no parameters, `add_pos_params` if it has only scalar
parameters, and `add_lst_params` if it has at least one list parameter. -/
def genStmt (stmt : Stmt) : List GenItem :=
  GenItem.constText stmt.const_name stmt.text ::
    (match stmt.params with
     | none => []
     | some params =>
       if params.lst_params.isEmpty then add_pos_params params stmt.name
       else add_lst_params params)

/-- The generated `<Struct>ArgsIter`: the argument values (in
field-declaration order) and the running index. -/
structure ArgsIter (α : Type) where
  item : List α
  index : Nat

/-- The generated `Iterator::next`: a `match` on `index` with one arm
`i => Some(self.item.<field i>)` per field and a fallback `None`, then
`self.index += 1`. -/
def ArgsIter.next (it : ArgsIter α) : Option α × ArgsIter α :=
  (it.item.get? it.index, ⟨it.item, it.index + 1⟩)

/-- The first `k` outputs of repeatedly calling `next`. -/
def iterOuts (it : ArgsIter α) : Nat → List (Option α)
  | 0 => []
  | k + 1 => (ArgsIter.next it).1 :: iterOuts (ArgsIter.next it).2 k

theorem iterOuts_drop (vals : List α) :
    ∀ (k i : Nat), i + k = vals.length →
      iterOuts ⟨vals, i⟩ (k + 1) = (vals.drop i).map some ++ [none] := by
  intro k
  induction k with
  | zero =>
    intro i hi
    rw [Nat.add_zero] at hi
    subst hi
    simp [iterOuts, ArgsIter.next, List.get?_eq_none.mpr le_rfl, List.drop_length]
  | succ k ih =>
    intro i hi
    have hlt : i < vals.length := by omega
    rw [iterOuts]
    rw [show iterOuts (ArgsIter.next ⟨vals, i⟩).2 (k + 1) =
        (vals.drop (i + 1)).map some ++ [none] from ih (i + 1) (by omega)]
    rw [show (ArgsIter.next (⟨vals, i⟩ : ArgsIter α)).1 = vals.get? i from rfl]
    rw [List.get?_eq_get hlt, List.drop_eq_getElem_cons hlt]
    simp [List.drop_eq_getElem_cons (show i < (vals.map some).length by simpa using hlt)]

/-- C10: code generation branches on the statement's parameters: no
parameters yields only the SQL text constant; only scalar parameters yields
the argument struct, the two argument macros, and an iterator (whose `next`
returns the scalar values in field-declaration order, then `None`); at least
one list parameter yields instead a struct whose impl carries
`into_sql_with_args`, with no macros and no iterator. -/
theorem c10_codegen_branches (stmt : Stmt) :
    (stmt.params = none → genStmt stmt = [GenItem.constText stmt.const_name stmt.text]) ∧
    (∀ params, stmt.params = some params → params.lst_params = [] →
      genStmt stmt =
        [GenItem.constText stmt.const_name stmt.text,
          GenItem.argStruct params.struct_name params.pos_params [],
          GenItem.defArgsMacro ("using_" ++ stmt.name ++ "_args"),
          GenItem.defArgsMacro (stmt.name ++ "_args"),
          GenItem.iterStruct (params.struct_name ++ "ArgsIter"),
          GenItem.intoIterImpl params.struct_name,
          GenItem.iteratorImpl (params.struct_name ++ "ArgsIter")]) ∧
    (∀ params, stmt.params = some params → params.lst_params ≠ [] →
      genStmt stmt =
        [GenItem.constText stmt.const_name stmt.text,
          GenItem.argStruct params.struct_name params.pos_params
            (lstFields params.lst_params),
          GenItem.intoSqlMethod params.struct_name]) ∧
    ∀ (α : Type) (vals : List α),
      iterOuts ⟨vals, 0⟩ (vals.length + 1) = vals.map some ++ [none] := by
  refine ⟨?_, ?_, ?_, ?_⟩
  · intro h
    simp [genStmt, h]
  · intro params hp hempty
    simp [genStmt, hp, hempty, add_pos_params]
  · intro params hp hne
    simp [genStmt, hp, List.isEmpty_iff, hne, add_lst_params]
  · intro α vals
    have := iterOuts_drop vals vals.length 0 (by omega)
    simpa using this

theorem c10_codegen_branches_witness :
    ((⟨"q", "Q", "SELECT 1".data, none⟩ : Stmt).params = none →
      genStmt ⟨"q", "Q", "SELECT 1".data, none⟩ =
        [GenItem.constText "Q" "SELECT 1".data]) ∧
    (∀ params, (⟨"q", "Q", "SELECT 1".data, none⟩ : Stmt).params = some params →
      params.lst_params = [] →
      genStmt ⟨"q", "Q", "SELECT 1".data, none⟩ =
        [GenItem.constText "Q" "SELECT 1".data,
          GenItem.argStruct params.struct_name params.pos_params [],
          GenItem.defArgsMacro ("using_" ++ "q" ++ "_args"),
          GenItem.defArgsMacro ("q" ++ "_args"),
          GenItem.iterStruct (params.struct_name ++ "ArgsIter"),
          GenItem.intoIterImpl params.struct_name,
          GenItem.iteratorImpl (params.struct_name ++ "ArgsIter")]) ∧
    (∀ params, (⟨"q", "Q", "SELECT 1".data, none⟩ : Stmt).params = some params →
      params.lst_params ≠ [] →
      genStmt ⟨"q", "Q", "SELECT 1".data, none⟩ =
        [GenItem.constText "Q" "SELECT 1".data,
          GenItem.argStruct params.struct_name params.pos_params
            (lstFields params.lst_params),
          GenItem.intoSqlMethod params.struct_name]) ∧
    ∀ (α : Type) (vals : List α),
      iterOuts ⟨vals, 0⟩ (vals.length + 1) = vals.map some ++ [none] :=
  c10_codegen_branches ⟨"q", "Q", "SELECT 1".data, none⟩

end IncludeSql
